import Mathlib

/-!
Transformation-based synthesis of reversible circuits: a shallow embedding of `lib/td/td/algorithms/transformation_based_synthesis.hpp`:
the two permutation-update primitives and the three synthesis strategies
(unidirectional, bidirectional, multidirectional), followed by the entry store
`cli_store` of `src/lscli/store.hpp`.

Conventions of the embedding.

* `std::vector<uint16_t>` is a `List Nat` whose entries are below `65536`.
* `uint32_t` / `unsigned` values are `Nat`s below `2^32`; a conversion to
  `uint16_t` is written `u16` (reduction modulo `2^16`), the complement `~` of
  a 32-bit operand is written `not32`.
* An in-place mutation of `perm` is returned as the new table.
* The `int` member `_current` of the store is an `Int`; the conversion of a
  size to `int` is written `to_int32`.
* A `while` loop is a function with a fuel argument; the fuel handed over by
  the strategy is the table length, and `x` grows by one per iteration, so the
  loop condition `x < perm.size()` is what ends every scan
  (`tbs_scan_fuel_enough` and its siblings).
* The row counter `x` of the scans is a `uint32_t` in the source and a `Nat`
  here. The two agree on tables of fewer than `2^32` rows, where `++x` never
  wraps, and the embedding is meant for such tables only (a bijective table of
  `uint16_t` entries has at most `2^16` rows).
-/

namespace TBS

/-- A recorded gate `(control mask, target mask)`, the
`std::pair<uint16_t, uint16_t>` of the source. -/
abbrev Gate := Nat × Nat

/-- Conversion of an unsigned value to `uint16_t`. -/
def u16 (v : Nat) : Nat := v % 65536

/-- Bitwise complement `~v` of a value held in a 32-bit unsigned operand
(a `uint16_t` operand is promoted first, which gives the same 32 result bits). -/
def not32 (v : Nat) : Nat := 4294967295 - v

/-- The function `__builtin_popcount` on a 32-bit unsigned operand. -/
def popcount (v : Nat) : Nat := ((List.range 32).filter (fun i => v.testBit i)).length

/-- Modelled from the spec: `small_mct_circuit` (its header
`networks/small_mct_circuit.hpp` is not part of the sources). The circuit
builder is created with a number of wires, allocates wires one at a time and
appends MCT gates `(control mask, target mask)` in call order. -/
structure small_mct_circuit where
  num_qubits : Nat
  allocated : Nat
  gates : List Gate
deriving DecidableEq

/-- Modelled from the spec: constructor `small_mct_circuit( num_qubits )`. -/
def small_mct_circuit.create (num_qubits : Nat) : small_mct_circuit :=
  { num_qubits := num_qubits, allocated := 0, gates := [] }

/-- Modelled from the spec: `allocate_qubit()`. -/
def small_mct_circuit.allocate_qubit (circ : small_mct_circuit) : small_mct_circuit :=
  { circ with allocated := circ.allocated + 1 }

/-- Modelled from the spec: `add_toffoli( c, t )` appends one gate. -/
def small_mct_circuit.add_toffoli (circ : small_mct_circuit) (c t : Nat) : small_mct_circuit :=
  { circ with gates := circ.gates ++ [(c, t)] }

/-- Halving loop behind `log2_floor`. -/
def log2_loop : Nat → Nat → Nat
  | 0, _ => 0
  | fuel + 1, v => if 2 ≤ v then log2_loop fuel (v / 2) + 1 else 0

/-- The value of `std::log2( perm.size() )` once converted to `uint32_t`: the
integer part of the binary logarithm (exact when the size is a power of two).
For an empty table the source converts minus infinity, which has no defined
result; the value here is `0`. -/
def log2_floor (v : Nat) : Nat := log2_loop v v

/-- The common prologue of the three strategies: `num_qubits = log2( perm.size() )`,
construction of the circuit and one `allocate_qubit()` per wire. -/
def new_circuit (perm : List Nat) : small_mct_circuit :=
  (List.range (log2_floor perm.length)).foldl (fun circ _ => circ.allocate_qubit)
    (small_mct_circuit.create (log2_floor perm.length))

/-- The common epilogue: `for ( const auto [c, t] : gates ) circ.add_toffoli( c, t );`. -/
def emit (circ : small_mct_circuit) (gates : List Gate) : small_mct_circuit :=
  gates.foldl (fun circ g => circ.add_toffoli g.1 g.2) circ

/-- MCT semantics of one gate on a bit vector `z` (spec, section 3): `z` becomes
`z ^ target` when `(z & control) == control`, and is unchanged otherwise. -/
def mct_apply (g : Gate) (z : Nat) : Nat :=
  if z &&& g.1 = g.1 then z ^^^ g.2 else z

/-- Simulation of a gate sequence on an input pattern, first gate first. -/
def simulate (gates : List Gate) (z : Nat) : Nat :=
  gates.foldl (fun z g => mct_apply g z) z

/-- Source `update_permutation`: every entry `z` with
`( z & controls ) == controls` becomes `z ^ targets`. -/
def update_permutation (perm : List Nat) (controls targets : Nat) : List Nat :=
  perm.map (fun z => if z &&& controls = controls then z ^^^ targets else z)

/-- The statement `std::swap( perm[i], perm[partner] )`. -/
def swap_entries (perm : List Nat) (i partner : Nat) : List Nat :=
  (perm.set i (perm.getD partner 0)).set partner (perm.getD i 0)

/-- One iteration of the `for` loop of `update_permutation_inv`. -/
def update_permutation_inv_step (controls targets : Nat) (perm : List Nat) (i : Nat) :
    List Nat :=
  if i &&& controls ≠ controls then perm
  else if i ^^^ targets > i then swap_entries perm i (i ^^^ targets)
  else perm

/-- Source `update_permutation_inv`: the loop `for ( i = 0; i < perm.size(); ++i )`
(a swap never changes the size). The source reads `perm[partner]` unchecked, so
it needs `partner < perm.size()`. -/
def update_permutation_inv (perm : List Nat) (controls targets : Nat) : List Nat :=
  (List.range perm.length).foldl (update_permutation_inv_step controls targets) perm

/-- The body of the `while` loop of `transformation_based_synthesis` for a row
`x` that is not yet fixed (lines 57-69). -/
def tbs_body (x : Nat) (perm : List Nat) (gates : List Gate) : List Nat × List Gate :=
  let y := perm.getD x 0
  let t01 := u16 (x &&& not32 y)
  let s1 := if t01 ≠ 0 then (update_permutation perm y t01, gates ++ [(y, t01)])
            else (perm, gates)
  let t10 := u16 (not32 x &&& y)
  if t10 ≠ 0 then (update_permutation s1.1 (u16 x) t10, s1.2 ++ [(u16 x, t10)])
  else s1

/-- The `while ( x < perm.size() )` loop of `transformation_based_synthesis`,
for tables of fewer than `2^32` rows (the source counts rows in a `uint32_t`,
which does not wrap there). -/
def tbs_scan : Nat → Nat → List Nat → List Gate → List Nat × List Gate
  | 0, _, perm, gates => (perm, gates)
  | fuel + 1, x, perm, gates =>
    if x < perm.length then
      if perm.getD x 0 = x then tbs_scan fuel (x + 1) perm gates
      else tbs_scan fuel (x + 1) (tbs_body x perm gates).1 (tbs_body x perm gates).2
    else (perm, gates)

/-- Source `transformation_based_synthesis`: the returned circuit together
with the table as the scan leaves it. -/
def transformation_based_synthesis (perm : List Nat) : small_mct_circuit × List Nat :=
  let r := tbs_scan perm.length 0 perm []
  (emit (new_circuit perm) r.2.reverse, r.1)

/-- The accumulator `std::list<std::pair<uint16_t, uint16_t>> gates` together
with the iterator `pos` of the bidirectional and multidirectional strategies.
`pos` is the index of the node the iterator refers to; `pos = gates.length`
is the past-the-end iterator `gates.end()`. -/
structure gate_list where
  gates : List Gate
  pos : Nat
deriving DecidableEq

/-- The state `gates` empty, `pos = gates.begin()` (which is `gates.end()`). -/
def gate_list.init : gate_list := { gates := [], pos := 0 }

/-- The call `gates.emplace( pos, c, t )`: the new node goes directly before
the node `pos` refers to, and `pos` keeps referring to the same node (or stays
`end()`), whose index grows by one. -/
def gate_list.emplace (l : gate_list) (g : Gate) : gate_list :=
  { gates := l.gates.take l.pos ++ g :: l.gates.drop l.pos, pos := l.pos + 1 }

/-- The call `gates.emplace( pos++, c, t )`: the argument `pos++` is evaluated
first, so `pos` steps to the successor of its node in the list as it is before
the insertion, and the new node goes directly before the node `pos` referred
to. Stepping `end()` forward is outside the contract of `std::list`; the
sentinel-based list implementations move to the first node (which is `end()`
again when the list is empty), and that is what is written here. Nodes at or
behind the insertion point have their index grow by one. -/
def gate_list.emplace_post_inc (l : gate_list) (g : Gate) : gate_list :=
  let old := l.pos
  let next := if old < l.gates.length then old + 1 else 0
  { gates := l.gates.take old ++ g :: l.gates.drop old,
    pos := if old ≤ next then next + 1 else next }

/-- The search `std::distance( perm.begin(), std::find( perm.begin() + x, perm.end(), x ) )`:
the first index at or after `x` whose entry is `x`, and `perm.size()` when
there is none. -/
def find_from (perm : List Nat) (x : Nat) : Nat :=
  x + (perm.drop x).indexOf x

/-- The body of the `while` loop of `transformation_based_synthesis_bidirectional`
for a row `x` that is not yet fixed (lines 105-138). -/
def bidirectional_body (x : Nat) (perm : List Nat) (l : gate_list) : List Nat × gate_list :=
  let y := perm.getD x 0
  let xs := u16 (find_from perm x)
  if popcount (x ^^^ y) ≤ popcount (x ^^^ xs) then
    let t01 := u16 (x &&& not32 y)
    let s1 := if t01 ≠ 0 then (update_permutation perm y t01, l.emplace (y, t01))
              else (perm, l)
    let t10 := u16 (not32 x &&& y)
    if t10 ≠ 0 then (update_permutation s1.1 (u16 x) t10, s1.2.emplace (u16 x, t10))
    else s1
  else
    let t01 := u16 (not32 xs &&& x)
    let s1 := if t01 ≠ 0 then (update_permutation_inv perm xs t01, l.emplace_post_inc (xs, t01))
              else (perm, l)
    let t10 := u16 (xs &&& not32 x)
    if t10 ≠ 0 then
      (update_permutation_inv s1.1 (u16 x) t10, s1.2.emplace_post_inc (u16 x, t10))
    else s1

/-- The `while ( x < perm.size() )` loop of
`transformation_based_synthesis_bidirectional`. -/
def bidirectional_scan : Nat → Nat → List Nat → gate_list → List Nat × gate_list
  | 0, _, perm, l => (perm, l)
  | fuel + 1, x, perm, l =>
    if x < perm.length then
      if perm.getD x 0 = x then bidirectional_scan fuel (x + 1) perm l
      else bidirectional_scan fuel (x + 1) (bidirectional_body x perm l).1
        (bidirectional_body x perm l).2
    else (perm, l)

/-- Source `transformation_based_synthesis_bidirectional`: the returned circuit
(the accumulator replayed front to back) together with the table as the scan
leaves it. -/
def transformation_based_synthesis_bidirectional (perm : List Nat) :
    small_mct_circuit × List Nat :=
  let r := bidirectional_scan perm.length 0 perm gate_list.init
  (emit (new_circuit perm) r.2.gates, r.1)

/-- The lambda `cost_f( x, z )` of the multidirectional strategy, reading the
current table. -/
def cost_f (perm : List Nat) (x z : Nat) : Nat :=
  popcount (z ^^^ x) + popcount (x ^^^ perm.getD z 0)

/-- One iteration of the inner `for` loop: the pair is `(x_best, x_cost)`. -/
def cheapest_step (perm : List Nat) (x : Nat) (best : Nat × Nat) (xx : Nat) : Nat × Nat :=
  if cost_f perm x xx < best.2 then (xx, cost_f perm x xx) else best

/-- The inner search "find cheapest assignment" (lines 172-181): `xx` runs over
`x + 1, ..., perm.size() - 1`; the result is `(x_best, x_cost)`. -/
def cheapest (perm : List Nat) (x : Nat) : Nat × Nat :=
  (List.range' (x + 1) (perm.length - (x + 1))).foldl (cheapest_step perm x)
    (x, popcount (x ^^^ perm.getD x 0))

/-- The body of the `while` loop of
`transformation_based_synthesis_multidirectional` (lines 171-214). -/
def multidirectional_body (x : Nat) (perm : List Nat) (l : gate_list) : List Nat × gate_list :=
  let z := (cheapest perm x).1
  let y := perm.getD z 0
  let t01 := u16 (not32 z &&& x)
  let s1 := if t01 ≠ 0 then
              (update_permutation_inv perm (u16 z) t01, l.emplace_post_inc (u16 z, t01))
            else (perm, l)
  let t10 := u16 (z &&& not32 x)
  let s2 := if t10 ≠ 0 then
              (update_permutation_inv s1.1 (u16 x) t10, s1.2.emplace_post_inc (u16 x, t10))
            else s1
  let u01 := u16 (x &&& not32 y)
  let s3 := if u01 ≠ 0 then (update_permutation s2.1 y u01, s2.2.emplace (y, u01))
            else s2
  let u10 := u16 (not32 x &&& y)
  if u10 ≠ 0 then (update_permutation s3.1 (u16 x) u10, s3.2.emplace (u16 x, u10))
  else s3

/-- The `while ( x < perm.size() )` loop of
`transformation_based_synthesis_multidirectional`. -/
def multidirectional_scan : Nat → Nat → List Nat → gate_list → List Nat × gate_list
  | 0, _, perm, l => (perm, l)
  | fuel + 1, x, perm, l =>
    if x < perm.length then
      multidirectional_scan fuel (x + 1) (multidirectional_body x perm l).1
        (multidirectional_body x perm l).2
    else (perm, l)

/-- Source `transformation_based_synthesis_multidirectional`: the returned
circuit (the accumulator replayed front to back) together with the table as
the scan leaves it. -/
def transformation_based_synthesis_multidirectional (perm : List Nat) :
    small_mct_circuit × List Nat :=
  let r := multidirectional_scan perm.length 0 perm gate_list.init
  (emit (new_circuit perm) r.2.gates, r.1)

/-- A table is a bijection on `[0, size)`: it lists every value below its
length exactly once. -/
def is_bijection (perm : List Nat) : Prop := List.Perm perm (List.range perm.length)

instance (perm : List Nat) : Decidable (is_bijection perm) := by
  unfold is_bijection; infer_instance

/-- Index read by the table after the rows below `k` have been processed. -/
def inv_index (c t k i : Nat) : Nat :=
  if i &&& c = c ∧ (i < k ∨ i ^^^ t < k) then i ^^^ t else i

/-- Rows below `x` are already fixed. -/
def fixed_below (perm : List Nat) (x : Nat) : Prop := ∀ i, i < x → perm.getD i 0 = i

/-- The state of a scan that has reached row `x`: a bijective table of length
`2^n` whose rows below `x` are fixed. -/
structure scan_inv (n : Nat) (perm : List Nat) (x : Nat) : Prop where
  len : perm.length = 2 ^ n
  bij : is_bijection perm
  fixed : fixed_below perm x

/-- The recorded gates, replayed last to first on the current table, give the
original table `p`. -/
def replays (n : Nat) (p perm : List Nat) (gates : List Gate) : Prop :=
  ∀ i, i < 2 ^ n → simulate gates.reverse (perm.getD i 0) = p.getD i 0

/-- Rows from `x` on are fixed. -/
def fixed_from (perm : List Nat) (x : Nat) : Prop :=
  ∀ i, x ≤ i → i < perm.length → perm.getD i 0 = i

/-- The table of the gate `(c, t)` on `n` wires: `table[i] = i ^ t` when
`(i & c) == c`, and `table[i] = i` otherwise. -/
def gate_table (n c t : Nat) : List Nat :=
  (List.range (2 ^ n)).map (fun i => if i &&& c = c then i ^^^ t else i)

/-- A gate fits `n` wires and is well formed: its target avoids its controls,
both masks are below `2^n`, and the target is not empty. -/
def gate_ok (n : Nat) (g : Gate) : Prop :=
  g.1 &&& g.2 = 0 ∧ g.1 < 2 ^ n ∧ g.2 < 2 ^ n ∧ g.2 ≠ 0

/-- A table without fixed point: `p[i] != i` for every row. -/
def no_fixed_point (p : List Nat) : Prop := ∀ i, i < p.length → p.getD i 0 ≠ i

instance (p : List Nat) : Decidable (no_fixed_point p) := by
  unfold no_fixed_point; infer_instance

/-- Conversion of a `size_t` value to `int` (32 bits, two's complement, as the
assignment `_current = s` performs it). -/
def to_int32 (v : Nat) : Int :=
  if v % 4294967296 < 2147483648 then ((v % 4294967296 : Nat) : Int)
  else ((v % 4294967296 : Nat) : Int) - 4294967296

/-- Source `cli_store<T>` of `src/lscli/store.hpp`: the name, the vector of
entries and the index of the current entry (an `int`, `-1` when there is
none). -/
structure cli_store (T : Type) where
  _name : String
  _data : List T
  _current : Int

/-- The constructor `cli_store( name )`: no entry, `_current = -1`. -/
def cli_store.create {T : Type} (name : String) : cli_store T :=
  { _name := name, _data := [], _current := -1 }

/-- Source `cli_store::size`. -/
def cli_store.size {T : Type} (s : cli_store T) : Nat := s._data.length

/-- Source `cli_store::empty`. -/
def cli_store.empty {T : Type} (s : cli_store T) : Bool := s._data.isEmpty

/-- Source `cli_store::current_index`. -/
def cli_store.current_index {T : Type} (s : cli_store T) : Int := s._current

/-- The message thrown by `current()` when `_current < 0`. -/
def no_current_message (name : String) : String :=
  "[e] no current " ++ name ++ " available"

/-- Source `cli_store::current`: throws the message when `_current < 0`, and
otherwise reads `_data[_current]`. The source reads unchecked; a read behind
the last entry has no defined result and is reported here as a second error. -/
def cli_store.current {T : Type} (s : cli_store T) : Except String T :=
  if s._current < 0 then Except.error (no_current_message s._name)
  else match s._data[s._current.toNat]? with
    | some v => Except.ok v
    | none => Except.error "read behind the last entry"

/-- Source `cli_store::extend`: the vector is resized by one (the new entry is
value-initialised), `_current` becomes the old size converted to `int`, and the
current entry is assigned `T()`. The result is the store after the call and
the exception thrown by the inner `current()`, if any. -/
def cli_store.extend {T : Type} [Inhabited T] (s : cli_store T) :
    cli_store T × Option String :=
  let n := s._data.length
  let resized := s._data ++ [default]
  let cur := to_int32 n
  if cur < 0 then
    ({ _name := s._name, _data := resized, _current := cur },
      some (no_current_message s._name))
  else
    ({ _name := s._name, _data := resized.set cur.toNat default, _current := cur }, none)

/-- Source `cli_store::clear`. -/
def cli_store.clear {T : Type} (s : cli_store T) : cli_store T :=
  { _name := s._name, _data := [], _current := -1 }

/-- A call of one of the two mutators considered. -/
inductive store_call where
  | extend
  | clear
deriving DecidableEq

/-- The store after one call. -/
def cli_store.call {T : Type} [Inhabited T] (s : cli_store T) : store_call → cli_store T
  | store_call.extend => s.extend.1
  | store_call.clear => s.clear

/-- The store after a sequence of calls, first call first. -/
def cli_store.calls {T : Type} [Inhabited T] (s : cli_store T) (cs : List store_call) :
    cli_store T :=
  cs.foldl cli_store.call s

/-! ## Bit-level facts -/

theorem u16_of_lt {v : Nat} (h : v < 65536) : u16 v = v := Nat.mod_eq_of_lt h

theorem testBit_not32 {v : Nat} (h : v < 4294967296) (i : Nat) :
    (not32 v).testBit i = (decide (i < 32) && !v.testBit i) := by
  have h2 : not32 v = 2 ^ 32 - (v + 1) := by unfold not32; omega
  rw [h2]
  exact Nat.testBit_two_pow_sub_succ (by simpa using h) i

theorem testBit_of_lt_65536 {v : Nat} (h : v < 65536) {i : Nat} (hi : 16 ≤ i) :
    v.testBit i = false := by
  apply Nat.testBit_lt_two_pow
  calc v < 2 ^ 16 := by simpa using h
    _ ≤ 2 ^ i := Nat.pow_le_pow_right (by decide) hi

/-- The mask `a & ~b` written without a complement. -/
theorem and_not32_eq {a b : Nat} (ha : a < 65536) (hb : b < 65536) :
    a &&& not32 b = a ^^^ (a &&& b) := by
  apply Nat.eq_of_testBit_eq; intro i
  rw [Nat.testBit_and, testBit_not32 (by omega), Nat.testBit_xor, Nat.testBit_and]
  by_cases hi : i < 32
  · simp only [hi, decide_True, Bool.true_and]
    cases a.testBit i <;> cases b.testBit i <;> rfl
  · have : a.testBit i = false := testBit_of_lt_65536 ha (by omega)
    simp [this]

theorem not32_and_eq {a b : Nat} (ha : a < 65536) (hb : b < 65536) :
    not32 a &&& b = b ^^^ (b &&& a) := by
  rw [Nat.and_comm, and_not32_eq hb ha]

theorem andn_le (a b : Nat) : a ^^^ (a &&& b) ≤ a := by
  have h : a ^^^ (a &&& b) = a &&& (a ^^^ (a &&& b)) := by
    apply Nat.eq_of_testBit_eq; intro i
    simp only [Nat.testBit_and, Nat.testBit_xor]
    cases a.testBit i <;> cases b.testBit i <;> rfl
  rw [h]; exact Nat.and_le_left

theorem andn_disjoint (a b : Nat) : b &&& (a ^^^ (a &&& b)) = 0 := by
  apply Nat.eq_of_testBit_eq; intro i
  simp only [Nat.testBit_and, Nat.testBit_xor, Nat.zero_testBit]
  cases a.testBit i <;> cases b.testBit i <;> rfl

theorem u16_and_not32 {a b : Nat} (ha : a < 65536) (hb : b < 65536) :
    u16 (a &&& not32 b) = a ^^^ (a &&& b) := by
  rw [and_not32_eq ha hb]
  exact u16_of_lt (lt_of_le_of_lt (andn_le a b) ha)

theorem u16_not32_and {a b : Nat} (ha : a < 65536) (hb : b < 65536) :
    u16 (not32 a &&& b) = b ^^^ (b &&& a) := by
  rw [not32_and_eq ha hb]
  exact u16_of_lt (lt_of_le_of_lt (andn_le b a) hb)

/-- A pattern that contains all control bits is at least the control mask. -/
theorem le_of_and_eq {z c : Nat} (h : z &&& c = c) : c ≤ z := by
  rw [← h]; exact Nat.and_le_left

theorem mct_apply_of_lt {c t z : Nat} (h : z < c) : mct_apply (c, t) z = z := by
  unfold mct_apply
  rw [if_neg]
  intro h2
  exact absurd (le_of_and_eq h2) (by omega)

theorem mct_apply_zero_target (c z : Nat) : mct_apply (c, 0) z = z := by
  unfold mct_apply; simp

theorem and_xor_of_disjoint {c t : Nat} (hct : c &&& t = 0) (z : Nat) :
    (z ^^^ t) &&& c = z &&& c := by
  apply Nat.eq_of_testBit_eq; intro i
  have h := congrArg (fun v => Nat.testBit v i) hct
  simp only [Nat.testBit_and, Nat.zero_testBit] at h
  simp only [Nat.testBit_and, Nat.testBit_xor]
  revert h
  cases z.testBit i <;> cases c.testBit i <;> cases t.testBit i <;> simp

/-- A gate whose target avoids its controls is its own inverse. -/
theorem mct_apply_involutive {c t : Nat} (hct : c &&& t = 0) (z : Nat) :
    mct_apply (c, t) (mct_apply (c, t) z) = z := by
  unfold mct_apply
  by_cases h : z &&& c = c
  · simp only [h, if_true, and_xor_of_disjoint hct, Nat.xor_cancel_right]
  · simp only [h, if_false]

theorem mct_apply_injective {c t : Nat} (hct : c &&& t = 0) :
    Function.Injective (mct_apply (c, t)) :=
  Function.LeftInverse.injective (mct_apply_involutive hct)

theorem mct_apply_lt {c t z n : Nat} (ht : t < 2 ^ n) (hz : z < 2 ^ n) :
    mct_apply (c, t) z < 2 ^ n := by
  unfold mct_apply
  split
  · exact Nat.xor_lt_two_pow hz ht
  · exact hz

/-- The two gates of a repair move the pattern `b` onto the pattern `a`:
first the bits of `a` missing in `b` are set (controlled by `b`), then the
bits of `b` missing in `a` are cleared (controlled by `a`). -/
theorem repair_maps (a b : Nat) :
    mct_apply (a, b ^^^ (b &&& a)) (mct_apply (b, a ^^^ (a &&& b)) b) = a := by
  have h1 : mct_apply (b, a ^^^ (a &&& b)) b = b ^^^ (a ^^^ (a &&& b)) := by
    unfold mct_apply; simp
  have h2 : (b ^^^ (a ^^^ (a &&& b))) &&& a = a := by
    apply Nat.eq_of_testBit_eq; intro i
    simp only [Nat.testBit_and, Nat.testBit_xor]
    cases a.testBit i <;> cases b.testBit i <;> rfl
  rw [h1]
  unfold mct_apply
  simp only [h2, if_true]
  apply Nat.eq_of_testBit_eq; intro i
  simp only [Nat.testBit_and, Nat.testBit_xor]
  cases a.testBit i <;> cases b.testBit i <;> rfl

/-! ## The forward update -/

theorem update_permutation_eq_map (perm : List Nat) (c t : Nat) :
    update_permutation perm c t = perm.map (mct_apply (c, t)) := rfl

@[simp] theorem update_permutation_length (perm : List Nat) (c t : Nat) :
    (update_permutation perm c t).length = perm.length := by
  simp [update_permutation]

theorem update_permutation_zero (perm : List Nat) (c : Nat) :
    update_permutation perm c 0 = perm := by
  rw [update_permutation_eq_map]
  conv_rhs => rw [← List.map_id perm]
  apply List.map_congr_left
  intro z _
  simp [mct_apply_zero_target]

theorem getD_update_permutation (perm : List Nat) (c t i : Nat) (hi : i < perm.length) :
    (update_permutation perm c t).getD i 0 = mct_apply (c, t) (perm.getD i 0) := by
  rw [update_permutation_eq_map]
  simp [List.getD_eq_getElem?_getD, List.getElem?_map, List.getElem?_eq_getElem hi]

/-! ## Bijections on `[0, 2^n)` -/

theorem is_bijection_iff (perm : List Nat) :
    is_bijection perm ↔ List.Perm perm (List.range perm.length) := Iff.rfl

theorem is_bijection.nodup {perm : List Nat} (h : is_bijection perm) : perm.Nodup :=
  (List.Perm.nodup_iff h).mpr (List.nodup_range _)

theorem is_bijection.lt {perm : List Nat} (h : is_bijection perm) {v : Nat} (hv : v ∈ perm) :
    v < perm.length := by
  have := (List.Perm.mem_iff h).mp hv
  simpa using this

theorem is_bijection.mem {perm : List Nat} (h : is_bijection perm) {v : Nat}
    (hv : v < perm.length) : v ∈ perm :=
  (List.Perm.mem_iff h).mpr (by simpa using hv)

theorem is_bijection.getD_lt {perm : List Nat} (h : is_bijection perm) {i : Nat}
    (hi : i < perm.length) : perm.getD i 0 < perm.length := by
  apply h.lt
  rw [List.getD_eq_getElem _ _ hi]
  exact List.getElem_mem hi

theorem is_bijection.getD_inj {perm : List Nat} (h : is_bijection perm) {i j : Nat}
    (hi : i < perm.length) (hj : j < perm.length)
    (hij : perm.getD i 0 = perm.getD j 0) : i = j := by
  rw [List.getD_eq_getElem _ _ hi, List.getD_eq_getElem _ _ hj] at hij
  exact (List.Nodup.getElem_inj_iff h.nodup).mp hij

/-- A duplicate-free table of length `m` with entries below `m` is a bijection. -/
theorem is_bijection_of_nodup {perm : List Nat} (hnd : perm.Nodup)
    (hlt : ∀ v ∈ perm, v < perm.length) : is_bijection perm := by
  unfold is_bijection
  apply List.Subperm.perm_of_length_le
  · apply List.Nodup.subperm hnd
    intro v hv
    simpa using hlt v hv
  · simp

/-- The images of `0, ..., 2^n - 1` under a gate are again all the patterns. -/
theorem map_gate_range_perm {c t n : Nat} (hct : c &&& t = 0) (ht : t < 2 ^ n) :
    List.Perm ((List.range (2 ^ n)).map (mct_apply (c, t))) (List.range (2 ^ n)) := by
  apply List.Subperm.perm_of_length_le
  · apply List.Nodup.subperm
    · exact List.Nodup.map (mct_apply_injective hct) (List.nodup_range _)
    · intro v hv
      rw [List.mem_map] at hv
      obtain ⟨z, hz, rfl⟩ := hv
      rw [List.mem_range] at hz ⊢
      exact mct_apply_lt ht hz
  · simp

theorem update_permutation_bijection {perm : List Nat} {c t n : Nat}
    (hlen : perm.length = 2 ^ n) (hb : is_bijection perm)
    (hct : c &&& t = 0) (ht : t < 2 ^ n) :
    is_bijection (update_permutation perm c t) := by
  unfold is_bijection at hb ⊢
  rw [update_permutation_length, update_permutation_eq_map, hlen]
  rw [hlen] at hb
  exact (List.Perm.map _ hb).trans (map_gate_range_perm hct ht)

/-! ## The backward update -/

@[simp] theorem swap_entries_length (perm : List Nat) (a b : Nat) :
    (swap_entries perm a b).length = perm.length := by
  simp [swap_entries]

theorem getD_swap_entries (perm : List Nat) (a b i : Nat) (ha : a < perm.length)
    (hb : b < perm.length) :
    (swap_entries perm a b).getD i 0 =
      if i = b then perm.getD a 0 else if i = a then perm.getD b 0 else perm.getD i 0 := by
  unfold swap_entries
  simp only [List.getD_eq_getElem?_getD, List.getElem?_set, List.length_set]
  by_cases h1 : i = b
  · subst h1; simp [hb]
  · by_cases h2 : i = a
    · subst h2
      simp [h1, ha, Ne.symm h1]
    · simp [h1, h2, Ne.symm h1, Ne.symm h2]

@[simp] theorem update_permutation_inv_step_length (c t : Nat) (perm : List Nat) (i : Nat) :
    (update_permutation_inv_step c t perm i).length = perm.length := by
  unfold update_permutation_inv_step
  split
  · rfl
  · split
    · simp
    · rfl

theorem xor_eq_iff (i t k : Nat) : i ^^^ t = k ↔ i = k ^^^ t := by
  constructor
  · intro h; rw [← h, Nat.xor_cancel_right]
  · intro h; rw [h, Nat.xor_cancel_right]

theorem inv_index_succ_of_ne {c t k i : Nat} (h1 : i ≠ k) (h2 : i ≠ k ^^^ t) :
    inv_index c t (k + 1) i = inv_index c t k i := by
  have h3 : i ^^^ t ≠ k := fun h => h2 ((xor_eq_iff i t k).mp h)
  unfold inv_index
  have : (i < k + 1 ∨ i ^^^ t < k + 1) ↔ (i < k ∨ i ^^^ t < k) := by omega
  simp only [this]

theorem inv_step_spec {perm T : List Nat} {c t n k : Nat}
    (hct : c &&& t = 0) (ht : t < 2 ^ n) (hkN : k < 2 ^ n) (ihl : T.length = 2 ^ n)
    (ihv : ∀ i, i < 2 ^ n → T.getD i 0 = perm.getD (inv_index c t k i) 0)
    (i : Nat) (hi : i < 2 ^ n) :
    (update_permutation_inv_step c t T k).getD i 0 =
      perm.getD (inv_index c t (k + 1) i) 0 := by
  have hkt : k ^^^ t < 2 ^ n := Nat.xor_lt_two_pow hkN ht
  have hktc : (k ^^^ t) &&& c = k &&& c := and_xor_of_disjoint hct k
  unfold update_permutation_inv_step
  by_cases hc : k &&& c = c
  · by_cases hgt : k ^^^ t > k
    · simp only [hc, ne_eq, not_true_eq_false, if_false, hgt, if_true]
      rw [getD_swap_entries _ _ _ _ (by omega) (by omega)]
      by_cases h1 : i = k ^^^ t
      · subst h1
        rw [if_pos rfl, ihv k hkN]
        have e1 : inv_index c t k k = k := by
          unfold inv_index; rw [if_neg]; omega
        have e2 : inv_index c t (k + 1) (k ^^^ t) = k := by
          unfold inv_index
          rw [if_pos, Nat.xor_cancel_right]
          refine ⟨by rw [hktc, hc], Or.inr ?_⟩
          rw [Nat.xor_cancel_right]; omega
        rw [e1, e2]
      · rw [if_neg h1]
        by_cases h2 : i = k
        · subst h2
          rw [if_pos rfl, ihv _ hkt]
          have e1 : inv_index c t i (i ^^^ t) = i ^^^ t := by
            unfold inv_index; rw [if_neg]
            rw [Nat.xor_cancel_right]; omega
          have e2 : inv_index c t (i + 1) i = i ^^^ t := by
            unfold inv_index
            rw [if_pos]
            exact ⟨hc, Or.inl (by omega)⟩
          rw [e1, e2]
        · rw [if_neg h2, ihv i hi, inv_index_succ_of_ne h2 h1]
    · simp only [hc, ne_eq, not_true_eq_false, if_false, hgt]
      rw [ihv i hi]
      by_cases h2 : i = k
      · subst h2
        unfold inv_index
        by_cases h3 : i ^^^ t = i
        · simp [h3]
        · have h4 : i ^^^ t < i := by omega
          rw [if_pos ⟨hc, Or.inr h4⟩, if_pos ⟨hc, Or.inr (by omega)⟩]
      · by_cases h1 : i = k ^^^ t
        · subst h1
          unfold inv_index
          rw [Nat.xor_cancel_right]
          have h4 : k ^^^ t < k := by omega
          rw [if_pos ⟨by rw [hktc, hc], Or.inl h4⟩,
            if_pos ⟨by rw [hktc, hc], Or.inl (by omega)⟩]
        · rw [inv_index_succ_of_ne h2 h1]
  · simp only [hc, ne_eq, not_false_eq_true, if_true]
    rw [ihv i hi]
    by_cases hic : i &&& c = c
    · have h2 : i ≠ k := fun h => hc (h ▸ hic)
      have h1 : i ≠ k ^^^ t := by
        intro h
        apply hc
        rw [← hktc, ← h, hic]
      rw [inv_index_succ_of_ne h2 h1]
    · unfold inv_index
      simp [hic]

theorem inv_processed {perm : List Nat} {c t n : Nat} (hlen : perm.length = 2 ^ n)
    (hct : c &&& t = 0) (ht : t < 2 ^ n) (k : Nat) (hk : k ≤ 2 ^ n) :
    ((List.range k).foldl (update_permutation_inv_step c t) perm).length = 2 ^ n ∧
    ∀ i, i < 2 ^ n →
      ((List.range k).foldl (update_permutation_inv_step c t) perm).getD i 0 =
        perm.getD (inv_index c t k i) 0 := by
  induction k with
  | zero =>
    refine ⟨by simpa using hlen, ?_⟩
    intro i _
    simp [inv_index]
  | succ k ih =>
    obtain ⟨ihl, ihv⟩ := ih (by omega)
    rw [List.range_succ, List.foldl_append]
    simp only [List.foldl_cons, List.foldl_nil]
    refine ⟨by simpa using ihl, ?_⟩
    intro i hi
    exact inv_step_spec hct ht (by omega) ihl ihv i hi

theorem inv_index_full {c t n i : Nat} (hi : i < 2 ^ n) :
    inv_index c t (2 ^ n) i = mct_apply (c, t) i := by
  unfold inv_index mct_apply
  by_cases hc : i &&& c = c
  · simp [hc, hi]
  · simp [hc]

@[simp] theorem update_permutation_inv_length (perm : List Nat) (c t : Nat) :
    (update_permutation_inv perm c t).length = perm.length := by
  unfold update_permutation_inv
  generalize List.range perm.length = ks
  induction ks generalizing perm with
  | nil => rfl
  | cons k ks ih => simp [List.foldl_cons, ih]

/-- Closed form of the backward update: row `i` of the new table is row
`g(i)` of the old one, `g` being the gate. -/
theorem getD_update_permutation_inv {perm : List Nat} {c t n : Nat}
    (hlen : perm.length = 2 ^ n) (hct : c &&& t = 0) (ht : t < 2 ^ n) (i : Nat)
    (hi : i < 2 ^ n) :
    (update_permutation_inv perm c t).getD i 0 = perm.getD (mct_apply (c, t) i) 0 := by
  unfold update_permutation_inv
  rw [hlen, (inv_processed hlen hct ht (2 ^ n) (le_refl _)).2 i hi, inv_index_full hi]

theorem update_permutation_inv_zero (perm : List Nat) (c : Nat) :
    update_permutation_inv perm c 0 = perm := by
  unfold update_permutation_inv
  generalize List.range perm.length = ks
  induction ks with
  | nil => rfl
  | cons k ks ih =>
    rw [List.foldl_cons]
    have : update_permutation_inv_step c 0 perm k = perm := by
      unfold update_permutation_inv_step; simp
    rw [this, ih]

theorem eq_map_range {perm : List Nat} {m : Nat} {f : Nat → Nat} (hlen : perm.length = m)
    (h : ∀ i, i < m → perm.getD i 0 = f i) : perm = (List.range m).map f := by
  apply List.ext_getElem
  · simp [hlen]
  · intro i h1 h2
    have hi : i < m := by omega
    have := h i hi
    rw [List.getD_eq_getElem _ _ h1] at this
    simp [this]

theorem update_permutation_inv_bijection {perm : List Nat} {c t n : Nat}
    (hlen : perm.length = 2 ^ n) (hb : is_bijection perm)
    (hct : c &&& t = 0) (ht : t < 2 ^ n) :
    is_bijection (update_permutation_inv perm c t) := by
  have e1 : update_permutation_inv perm c t =
      ((List.range (2 ^ n)).map (mct_apply (c, t))).map (fun i => perm.getD i 0) := by
    rw [List.map_map]
    exact eq_map_range (by simpa using hlen)
      (fun i hi => getD_update_permutation_inv hlen hct ht i hi)
  have e2 : perm = (List.range (2 ^ n)).map (fun i => perm.getD i 0) :=
    eq_map_range hlen (fun i _ => rfl)
  have h1 : List.Perm (update_permutation_inv perm c t) perm := by
    rw [e1]
    conv_rhs => rw [e2]
    exact List.Perm.map _ (map_gate_range_perm hct ht)
  unfold is_bijection at hb ⊢
  rw [update_permutation_inv_length]
  exact h1.trans hb

/-! ## The scan invariant -/

theorem scan_inv.start {n : Nat} {perm : List Nat} (hlen : perm.length = 2 ^ n)
    (hb : is_bijection perm) : scan_inv n perm 0 :=
  ⟨hlen, hb, fun _ h => absurd h (Nat.not_lt_zero _)⟩

theorem scan_inv.skip {n x : Nat} {perm : List Nat} (h : scan_inv n perm x)
    (hx : perm.getD x 0 = x) : scan_inv n perm (x + 1) := by
  refine ⟨h.len, h.bij, ?_⟩
  intro i hi
  by_cases e : i = x
  · rw [e, hx]
  · exact h.fixed i (by omega)

/-- Entries at or behind the scan position are at least the scan position. -/
theorem scan_inv.le_getD {n x : Nat} {perm : List Nat} (h : scan_inv n perm x) {i : Nat}
    (hxi : x ≤ i) (hi : i < 2 ^ n) : x ≤ perm.getD i 0 := by
  by_contra hlt
  have hv : perm.getD i 0 < x := by omega
  have h1 := h.fixed _ hv
  have h2 := h.bij.getD_inj (i := perm.getD i 0) (j := i) (by rw [h.len]; omega)
    (by rw [h.len]; exact hi) h1
  omega

theorem scan_inv.entry_lt {n x : Nat} {perm : List Nat} (h : scan_inv n perm x) {i : Nat}
    (hi : i < 2 ^ n) : perm.getD i 0 < 2 ^ n := by
  have := h.bij.getD_lt (i := i) (by rw [h.len]; exact hi)
  rwa [h.len] at this

/-- A table with every row fixed is the identity table. -/
theorem scan_inv.eq_range {n : Nat} {perm : List Nat} (h : scan_inv n perm (2 ^ n)) :
    perm = List.range (2 ^ n) := by
  have := eq_map_range (f := id) h.len (fun i hi => h.fixed i hi)
  simpa using this

/-- The forward repair of row `x` (two forward updates) fixes row `x` and keeps
the rows below it. -/
theorem scan_inv.forward {n x y : Nat} {perm : List Nat} (h : scan_inv n perm x)
    (hx : x < 2 ^ n) (hxy : x ≤ y) (hy : y < 2 ^ n) (hyx : perm.getD x 0 = y) :
    scan_inv n (update_permutation (update_permutation perm y (x ^^^ (x &&& y))) x
      (y ^^^ (y &&& x))) (x + 1) := by
  have ht1 : x ^^^ (x &&& y) < 2 ^ n := lt_of_le_of_lt (andn_le x y) hx
  have ht2 : y ^^^ (y &&& x) < 2 ^ n := lt_of_le_of_lt (andn_le y x) hy
  have hb1 := update_permutation_bijection h.len h.bij (andn_disjoint x y) ht1
  have hl1 : (update_permutation perm y (x ^^^ (x &&& y))).length = 2 ^ n := by
    simpa using h.len
  refine ⟨by simpa using h.len, update_permutation_bijection hl1 hb1 (andn_disjoint y x) ht2, ?_⟩
  intro i hi
  have hiN : i < 2 ^ n := by omega
  rw [getD_update_permutation _ _ _ _ (by omega),
    getD_update_permutation _ _ _ _ (by rw [h.len]; exact hiN)]
  by_cases e : i = x
  · rw [e, hyx]
    exact repair_maps x y
  · have hlt : i < x := by omega
    rw [h.fixed i hlt, mct_apply_of_lt (c := y) (z := i) (by omega), mct_apply_of_lt hlt]

/-- The backward repair (two backward updates) brings row `z` to row `x` and
keeps the rows below `x`. -/
theorem scan_inv.backward {n x z : Nat} {perm : List Nat} (h : scan_inv n perm x)
    (hx : x < 2 ^ n) (hxz : x ≤ z) (hz : z < 2 ^ n) :
    scan_inv n (update_permutation_inv (update_permutation_inv perm z (x ^^^ (x &&& z))) x
      (z ^^^ (z &&& x))) x ∧
    (update_permutation_inv (update_permutation_inv perm z (x ^^^ (x &&& z))) x
      (z ^^^ (z &&& x))).getD x 0 = perm.getD z 0 := by
  have ht1 : x ^^^ (x &&& z) < 2 ^ n := lt_of_le_of_lt (andn_le x z) hx
  have ht2 : z ^^^ (z &&& x) < 2 ^ n := lt_of_le_of_lt (andn_le z x) hz
  have hb1 := update_permutation_inv_bijection h.len h.bij (andn_disjoint x z) ht1
  have hl1 : (update_permutation_inv perm z (x ^^^ (x &&& z))).length = 2 ^ n := by
    simpa using h.len
  have key : ∀ i, i < 2 ^ n →
      (update_permutation_inv (update_permutation_inv perm z (x ^^^ (x &&& z))) x
        (z ^^^ (z &&& x))).getD i 0 =
      perm.getD (mct_apply (z, x ^^^ (x &&& z)) (mct_apply (x, z ^^^ (z &&& x)) i)) 0 := by
    intro i hi
    rw [getD_update_permutation_inv hl1 (andn_disjoint z x) ht2 i hi,
      getD_update_permutation_inv h.len (andn_disjoint x z) ht1 _ (mct_apply_lt ht2 hi)]
  refine ⟨⟨by simpa using h.len,
    update_permutation_inv_bijection hl1 hb1 (andn_disjoint z x) ht2, ?_⟩, ?_⟩
  · intro i hi
    rw [key i (by omega), mct_apply_of_lt (c := x) (z := i) hi, mct_apply_of_lt (by omega)]
    exact h.fixed i hi
  · rw [key x hx, repair_maps z x]

/-! ## Circuit emission and simulation -/

theorem emit_gates (circ : small_mct_circuit) (gates : List Gate) :
    (emit circ gates).gates = circ.gates ++ gates := by
  unfold emit
  induction gates generalizing circ with
  | nil => simp
  | cons g gs ih =>
    rw [List.foldl_cons, ih]
    simp [small_mct_circuit.add_toffoli]

theorem new_circuit_gates (perm : List Nat) : (new_circuit perm).gates = [] := by
  unfold new_circuit
  generalize List.range (log2_floor perm.length) = ks
  have : ∀ (c : small_mct_circuit), c.gates = [] →
      (ks.foldl (fun circ _ => circ.allocate_qubit) c).gates = [] := by
    induction ks with
    | nil => intro c hc; exact hc
    | cons k ks ih =>
      intro c hc
      rw [List.foldl_cons]
      exact ih _ (by simpa [small_mct_circuit.allocate_qubit] using hc)
  exact this _ rfl

theorem emit_new_circuit_gates (perm : List Nat) (gates : List Gate) :
    (emit (new_circuit perm) gates).gates = gates := by
  rw [emit_gates, new_circuit_gates, List.nil_append]

theorem simulate_nil (z : Nat) : simulate [] z = z := rfl

theorem simulate_cons (g : Gate) (gs : List Gate) (z : Nat) :
    simulate (g :: gs) z = simulate gs (mct_apply g z) := rfl

theorem simulate_append (gs hs : List Gate) (z : Nat) :
    simulate (gs ++ hs) z = simulate hs (simulate gs z) := by
  unfold simulate; rw [List.foldl_append]

theorem replays.initial (n : Nat) (p : List Nat) : replays n p p [] := fun _ _ => rfl

theorem replays.record {n : Nat} {p perm : List Nat} {gates : List Gate} {c t : Nat}
    (h : replays n p perm gates) (hlen : perm.length = 2 ^ n) (hct : c &&& t = 0) :
    replays n p (update_permutation perm c t)
      (if t ≠ 0 then gates ++ [(c, t)] else gates) := by
  intro i hi
  by_cases ht : t = 0
  · subst ht
    rw [update_permutation_zero, if_neg (by simp)]
    exact h i hi
  · rw [if_pos ht, List.reverse_append, List.reverse_singleton, List.singleton_append,
      simulate_cons, getD_update_permutation _ _ _ _ (by omega), mct_apply_involutive hct]
    exact h i hi

/-! ## The unidirectional scan -/

theorem ite_pair {α β : Type} (P : Prop) [Decidable P] (a a' : α) (b b' : β) :
    (if P then (a, b) else (a', b')) = (if P then a else a', if P then b else b') := by
  split <;> rfl

theorem update_permutation_ite (perm : List Nat) (c t : Nat) :
    (if t ≠ 0 then update_permutation perm c t else perm) = update_permutation perm c t := by
  by_cases h : t = 0
  · rw [if_neg (not_not.mpr h), h, update_permutation_zero]
  · rw [if_pos h]

theorem update_permutation_inv_ite (perm : List Nat) (c t : Nat) :
    (if t ≠ 0 then update_permutation_inv perm c t else perm) =
      update_permutation_inv perm c t := by
  by_cases h : t = 0
  · rw [if_neg (not_not.mpr h), h, update_permutation_inv_zero]
  · rw [if_pos h]

theorem tbs_body_eq {x y : Nat} {perm : List Nat} (gates : List Gate) (hx : x < 65536)
    (hy : y < 65536) (hyx : perm.getD x 0 = y) :
    tbs_body x perm gates =
      (update_permutation (update_permutation perm y (x ^^^ (x &&& y))) x (y ^^^ (y &&& x)),
        if y ^^^ (y &&& x) ≠ 0 then
          (if x ^^^ (x &&& y) ≠ 0 then gates ++ [(y, x ^^^ (x &&& y))] else gates) ++
            [(x, y ^^^ (y &&& x))]
        else (if x ^^^ (x &&& y) ≠ 0 then gates ++ [(y, x ^^^ (x &&& y))] else gates)) := by
  unfold tbs_body
  simp only [hyx, u16_and_not32 hx hy, u16_not32_and hx hy, u16_of_lt hx, ite_pair,
    update_permutation_ite]

theorem pow_le_65536 {n : Nat} (hn : n ≤ 16) : 2 ^ n ≤ 65536 :=
  calc 2 ^ n ≤ 2 ^ 16 := Nat.pow_le_pow_right (by decide) hn
    _ = 65536 := by norm_num

theorem tbs_scan_spec {n : Nat} (hn : n ≤ 16) (p : List Nat) :
    ∀ (fuel x : Nat) (perm : List Nat) (gates : List Gate),
      scan_inv n perm x → x ≤ 2 ^ n → 2 ^ n ≤ x + fuel → replays n p perm gates →
      (tbs_scan fuel x perm gates).1 = List.range (2 ^ n) ∧
        replays n p (tbs_scan fuel x perm gates).1 (tbs_scan fuel x perm gates).2 := by
  have h16 := pow_le_65536 hn
  intro fuel
  induction fuel with
  | zero =>
    intro x perm gates hinv hx hfuel hrep
    have : x = 2 ^ n := by omega
    subst this
    exact ⟨hinv.eq_range, hrep⟩
  | succ fuel ih =>
    intro x perm gates hinv hx hfuel hrep
    unfold tbs_scan
    by_cases hlt : x < perm.length
    · rw [if_pos hlt]
      have hxN : x < 2 ^ n := by rw [← hinv.len]; exact hlt
      by_cases hfix : perm.getD x 0 = x
      · rw [if_pos hfix]
        exact ih (x + 1) perm gates (hinv.skip hfix) (by omega) (by omega) hrep
      · rw [if_neg hfix]
        have hyN := hinv.entry_lt hxN
        have hxy := hinv.le_getD (le_refl x) hxN
        have hx16 : x < 65536 := by omega
        have hy16 : perm.getD x 0 < 65536 := by omega
        have hf := hinv.forward hxN hxy hyN rfl
        rw [tbs_body_eq gates hx16 hy16 rfl]
        refine ih (x + 1) _ _ hf (by omega) (by omega) ?_
        exact (hrep.record hinv.len (andn_disjoint x _)).record (by simpa using hinv.len)
          (andn_disjoint _ x)
    · rw [if_neg hlt]
      have : x = 2 ^ n := by rw [hinv.len] at hlt; omega
      subst this
      exact ⟨hinv.eq_range, hrep⟩

theorem tbs_body_length (x : Nat) (perm : List Nat) (gates : List Gate) :
    (tbs_body x perm gates).1.length = perm.length := by
  unfold tbs_body
  simp only []
  split <;> split <;> simp

/-- The scan ends because its loop condition fails, not for lack of fuel:
more fuel than the table length changes nothing. -/
theorem tbs_scan_fuel_enough (extra : Nat) :
    ∀ (fuel x : Nat) (perm : List Nat) (gates : List Gate), perm.length ≤ x + fuel →
      tbs_scan (fuel + extra) x perm gates = tbs_scan fuel x perm gates := by
  intro fuel
  induction fuel with
  | zero =>
    intro x perm gates h
    cases extra with
    | zero => rfl
    | succ e =>
      rw [Nat.zero_add]
      unfold tbs_scan
      rw [if_neg (by omega)]
  | succ fuel ih =>
    intro x perm gates h
    rw [Nat.add_right_comm]
    unfold tbs_scan
    by_cases hlt : x < perm.length
    · simp only [if_pos hlt]
      split
      · exact ih _ _ _ (by omega)
      · exact ih _ _ _ (by rw [tbs_body_length]; omega)
    · simp only [if_neg hlt]

/-! ## The bidirectional scan -/

/-- In a bijective table whose rows below `x` are fixed, the search for the
value `x` from row `x` on succeeds. -/
theorem scan_inv.find_from_spec {n x : Nat} {perm : List Nat} (h : scan_inv n perm x)
    (hx : x < 2 ^ n) :
    x ≤ find_from perm x ∧ find_from perm x < 2 ^ n ∧
      perm.getD (find_from perm x) 0 = x := by
  have hmem : x ∈ perm := h.bij.mem (by rw [h.len]; exact hx)
  obtain ⟨idx, hidx, hval⟩ := List.getElem_of_mem hmem
  have hge : x ≤ idx := by
    by_contra hlt
    have := h.fixed idx (by omega)
    rw [List.getD_eq_getElem _ _ hidx, hval] at this
    omega
  have hmem2 : x ∈ perm.drop x := by
    rw [List.mem_drop_iff_getElem]
    refine ⟨idx - x, by omega, ?_⟩
    have e : x + (idx - x) = idx := by omega
    simp only [e]
    exact hval
  have hlt := List.indexOf_lt_length.mpr hmem2
  have hlen2 : (perm.drop x).length = 2 ^ n - x := by rw [List.length_drop, h.len]
  have hget := List.getElem_indexOf hlt
  rw [List.getElem_drop] at hget
  unfold find_from
  refine ⟨by omega, by omega, ?_⟩
  rw [List.getD_eq_getElem _ _ (by rw [h.len]; omega)]
  exact hget

theorem bidirectional_body_table {x y xs : Nat} {perm : List Nat} (l : gate_list)
    (hx : x < 65536) (hy : y < 65536) (hxs : xs < 65536) (hyx : perm.getD x 0 = y)
    (hxsx : find_from perm x = xs) :
    (bidirectional_body x perm l).1 =
      if popcount (x ^^^ y) ≤ popcount (x ^^^ xs) then
        update_permutation (update_permutation perm y (x ^^^ (x &&& y))) x (y ^^^ (y &&& x))
      else
        update_permutation_inv (update_permutation_inv perm xs (x ^^^ (x &&& xs))) x
          (xs ^^^ (xs &&& x)) := by
  unfold bidirectional_body
  simp only [hyx, hxsx, u16_and_not32 hx hy, u16_not32_and hx hy, u16_and_not32 hxs hx,
    u16_not32_and hxs hx, u16_of_lt hx, u16_of_lt hxs, ite_pair, update_permutation_ite,
    update_permutation_inv_ite]

theorem bidirectional_scan_table {n : Nat} (hn : n ≤ 16) :
    ∀ (fuel x : Nat) (perm : List Nat) (l : gate_list),
      scan_inv n perm x → x ≤ 2 ^ n → 2 ^ n ≤ x + fuel →
      (bidirectional_scan fuel x perm l).1 = List.range (2 ^ n) := by
  have h16 := pow_le_65536 hn
  intro fuel
  induction fuel with
  | zero =>
    intro x perm l hinv hx hfuel
    have : x = 2 ^ n := by omega
    subst this
    exact hinv.eq_range
  | succ fuel ih =>
    intro x perm l hinv hx hfuel
    unfold bidirectional_scan
    by_cases hlt : x < perm.length
    · rw [if_pos hlt]
      have hxN : x < 2 ^ n := by rw [← hinv.len]; exact hlt
      by_cases hfix : perm.getD x 0 = x
      · rw [if_pos hfix]
        exact ih (x + 1) perm l (hinv.skip hfix) (by omega) (by omega)
      · rw [if_neg hfix]
        have hyN := hinv.entry_lt hxN
        have hxy := hinv.le_getD (le_refl x) hxN
        obtain ⟨hs1, hs2, hs3⟩ := hinv.find_from_spec hxN
        apply ih (x + 1) _ _ _ (by omega) (by omega)
        rw [bidirectional_body_table l (by omega) (by omega) (by omega) rfl rfl]
        split
        · exact hinv.forward hxN hxy hyN rfl
        · obtain ⟨hb, hbx⟩ := hinv.backward hxN hs1 hs2
          exact hb.skip (by rw [hbx, hs3])
    · rw [if_neg hlt]
      have : x = 2 ^ n := by rw [hinv.len] at hlt; omega
      subst this
      exact hinv.eq_range

/-! ## The multidirectional scan -/

theorem cheapest_fold_bounds (perm : List Nat) (x m : Nat) :
    ∀ (ks : List Nat) (best : Nat × Nat), (∀ k ∈ ks, x ≤ k ∧ k < m) →
      x ≤ best.1 ∧ best.1 < m →
      x ≤ (ks.foldl (cheapest_step perm x) best).1 ∧
        (ks.foldl (cheapest_step perm x) best).1 < m := by
  intro ks
  induction ks with
  | nil => intro best _ hb; exact hb
  | cons k ks ih =>
    intro best hks hb
    rw [List.foldl_cons]
    apply ih
    · intro k' hk'; exact hks k' (List.mem_cons_of_mem _ hk')
    · unfold cheapest_step
      split
      · exact hks k (List.mem_cons_self _ _)
      · exact hb

/-- The selected candidate is a row at or behind `x`. -/
theorem cheapest_bounds (perm : List Nat) (x : Nat) (hx : x < perm.length) :
    x ≤ (cheapest perm x).1 ∧ (cheapest perm x).1 < perm.length := by
  unfold cheapest
  apply cheapest_fold_bounds
  · intro k hk
    rw [List.mem_range'_1] at hk
    omega
  · exact ⟨le_refl x, hx⟩

theorem multidirectional_body_table {x y z : Nat} {perm : List Nat} (l : gate_list)
    (hx : x < 65536) (hy : y < 65536) (hz : z < 65536) (hzx : (cheapest perm x).1 = z)
    (hyz : perm.getD z 0 = y) :
    (multidirectional_body x perm l).1 =
      update_permutation (update_permutation
        (update_permutation_inv (update_permutation_inv perm z (x ^^^ (x &&& z))) x
          (z ^^^ (z &&& x))) y (x ^^^ (x &&& y))) x (y ^^^ (y &&& x)) := by
  unfold multidirectional_body
  simp only [hzx, hyz, u16_and_not32 hx hy, u16_not32_and hx hy, u16_and_not32 hz hx,
    u16_not32_and hz hx, u16_of_lt hx, u16_of_lt hz, ite_pair, update_permutation_ite,
    update_permutation_inv_ite]

theorem multidirectional_scan_table {n : Nat} (hn : n ≤ 16) :
    ∀ (fuel x : Nat) (perm : List Nat) (l : gate_list),
      scan_inv n perm x → x ≤ 2 ^ n → 2 ^ n ≤ x + fuel →
      (multidirectional_scan fuel x perm l).1 = List.range (2 ^ n) := by
  have h16 := pow_le_65536 hn
  intro fuel
  induction fuel with
  | zero =>
    intro x perm l hinv hx hfuel
    have : x = 2 ^ n := by omega
    subst this
    exact hinv.eq_range
  | succ fuel ih =>
    intro x perm l hinv hx hfuel
    unfold multidirectional_scan
    by_cases hlt : x < perm.length
    · rw [if_pos hlt]
      have hxN : x < 2 ^ n := by rw [← hinv.len]; exact hlt
      obtain ⟨hz1, hz2⟩ := cheapest_bounds perm x hlt
      rw [hinv.len] at hz2
      have hyN := hinv.entry_lt hz2
      have hxy := hinv.le_getD hz1 hz2
      apply ih (x + 1) _ _ _ (by omega) (by omega)
      rw [multidirectional_body_table l (by omega) (by omega) (by omega) rfl rfl]
      obtain ⟨hb, hbx⟩ := hinv.backward hxN hz1 hz2
      exact hb.forward hxN hxy hyN hbx
    · rw [if_neg hlt]
      have : x = 2 ^ n := by rw [hinv.len] at hlt; omega
      subst this
      exact hinv.eq_range

/-- The table computed by the bidirectional scan does not depend on the gate
accumulator or on its cursor. -/
theorem bidirectional_scan_table_indep :
    ∀ (fuel x : Nat) (perm : List Nat) (l l2 : gate_list),
      (bidirectional_scan fuel x perm l).1 = (bidirectional_scan fuel x perm l2).1 := by
  intro fuel
  induction fuel with
  | zero => intro x perm l l2; rfl
  | succ fuel ih =>
    intro x perm l l2
    have hb : (bidirectional_body x perm l).1 = (bidirectional_body x perm l2).1 := by
      unfold bidirectional_body
      simp only [ite_pair]
    unfold bidirectional_scan
    split
    · split
      · exact ih _ _ _ _
      · rw [hb]; exact ih _ _ _ _
    · rfl

/-- The table computed by the multidirectional scan does not depend on the gate
accumulator or on its cursor. -/
theorem multidirectional_scan_table_indep :
    ∀ (fuel x : Nat) (perm : List Nat) (l l2 : gate_list),
      (multidirectional_scan fuel x perm l).1 = (multidirectional_scan fuel x perm l2).1 := by
  intro fuel
  induction fuel with
  | zero => intro x perm l l2; rfl
  | succ fuel ih =>
    intro x perm l l2
    have hb : (multidirectional_body x perm l).1 = (multidirectional_body x perm l2).1 := by
      unfold multidirectional_body
      simp only [ite_pair]
    unfold multidirectional_scan
    split
    · rw [hb]; exact ih _ _ _ _
    · rfl

/-! ## Fuel -/

theorem bidirectional_body_length (x : Nat) (perm : List Nat) (l : gate_list) :
    (bidirectional_body x perm l).1.length = perm.length := by
  unfold bidirectional_body
  simp only []
  split <;> split <;> split <;> simp

theorem multidirectional_body_length (x : Nat) (perm : List Nat) (l : gate_list) :
    (multidirectional_body x perm l).1.length = perm.length := by
  unfold multidirectional_body
  simp only []
  split <;> split <;> split <;> split <;> simp

/-- The bidirectional scan ends because its loop condition fails: more fuel
than the table length changes nothing. -/
theorem bidirectional_scan_fuel_enough (extra : Nat) :
    ∀ (fuel x : Nat) (perm : List Nat) (l : gate_list), perm.length ≤ x + fuel →
      bidirectional_scan (fuel + extra) x perm l = bidirectional_scan fuel x perm l := by
  intro fuel
  induction fuel with
  | zero =>
    intro x perm l h
    cases extra with
    | zero => rfl
    | succ e =>
      rw [Nat.zero_add]
      unfold bidirectional_scan
      rw [if_neg (by omega)]
  | succ fuel ih =>
    intro x perm l h
    rw [Nat.add_right_comm]
    unfold bidirectional_scan
    by_cases hlt : x < perm.length
    · simp only [if_pos hlt]
      split
      · exact ih _ _ _ (by omega)
      · exact ih _ _ _ (by rw [bidirectional_body_length]; omega)
    · simp only [if_neg hlt]

/-- The multidirectional scan ends because its loop condition fails: more fuel
than the table length changes nothing. -/
theorem multidirectional_scan_fuel_enough (extra : Nat) :
    ∀ (fuel x : Nat) (perm : List Nat) (l : gate_list), perm.length ≤ x + fuel →
      multidirectional_scan (fuel + extra) x perm l = multidirectional_scan fuel x perm l := by
  intro fuel
  induction fuel with
  | zero =>
    intro x perm l h
    cases extra with
    | zero => rfl
    | succ e =>
      rw [Nat.zero_add]
      unfold multidirectional_scan
      rw [if_neg (by omega)]
  | succ fuel ih =>
    intro x perm l h
    rw [Nat.add_right_comm]
    unfold multidirectional_scan
    by_cases hlt : x < perm.length
    · simp only [if_pos hlt]
      exact ih _ _ _ (by rw [multidirectional_body_length]; omega)
    · simp only [if_neg hlt]

/-! ## Tables whose remaining rows are fixed -/

theorem tbs_scan_fixed :
    ∀ (fuel x : Nat) (perm : List Nat) (gates : List Gate), fixed_from perm x →
      tbs_scan fuel x perm gates = (perm, gates) := by
  intro fuel
  induction fuel with
  | zero => intro x perm gates _; rfl
  | succ fuel ih =>
    intro x perm gates h
    unfold tbs_scan
    by_cases hlt : x < perm.length
    · rw [if_pos hlt, if_pos (h x (le_refl x) hlt)]
      exact ih _ _ _ (fun i hi => h i (by omega))
    · rw [if_neg hlt]

theorem bidirectional_scan_fixed :
    ∀ (fuel x : Nat) (perm : List Nat) (l : gate_list), fixed_from perm x →
      bidirectional_scan fuel x perm l = (perm, l) := by
  intro fuel
  induction fuel with
  | zero => intro x perm l _; rfl
  | succ fuel ih =>
    intro x perm l h
    unfold bidirectional_scan
    by_cases hlt : x < perm.length
    · rw [if_pos hlt, if_pos (h x (le_refl x) hlt)]
      exact ih _ _ _ (fun i hi => h i (by omega))
    · rw [if_neg hlt]

theorem popcount_zero : popcount 0 = 0 := by decide

theorem cheapest_fold_const (perm : List Nat) (x : Nat) :
    ∀ (ks : List Nat) (best : Nat × Nat), (∀ k ∈ ks, best.2 ≤ cost_f perm x k) →
      ks.foldl (cheapest_step perm x) best = best := by
  intro ks
  induction ks with
  | nil => intro best _; rfl
  | cons k ks ih =>
    intro best h
    rw [List.foldl_cons]
    have : cheapest_step perm x best k = best := by
      unfold cheapest_step
      rw [if_neg]
      have := h k (List.mem_cons_self _ _)
      omega
    rw [this]
    exact ih best (fun k' hk' => h k' (List.mem_cons_of_mem _ hk'))

/-- A fixed row is its own cheapest candidate, at cost zero. -/
theorem cheapest_of_fixed {perm : List Nat} {x : Nat} (h : perm.getD x 0 = x) :
    cheapest perm x = (x, 0) := by
  unfold cheapest
  rw [h, Nat.xor_self, popcount_zero]
  exact cheapest_fold_const perm x _ _ (fun _ _ => Nat.zero_le _)

theorem multidirectional_body_fixed {x : Nat} {perm : List Nat} (l : gate_list)
    (hx : x < 65536) (h : perm.getD x 0 = x) :
    multidirectional_body x perm l = (perm, l) := by
  unfold multidirectional_body
  simp only [cheapest_of_fixed h, h, u16_and_not32 hx hx, u16_not32_and hx hx,
    Nat.and_self, Nat.xor_self, ne_eq, not_true_eq_false, if_false]

theorem multidirectional_scan_fixed :
    ∀ (fuel x : Nat) (perm : List Nat) (l : gate_list), perm.length ≤ 65536 →
      fixed_from perm x → multidirectional_scan fuel x perm l = (perm, l) := by
  intro fuel
  induction fuel with
  | zero => intro x perm l _ _; rfl
  | succ fuel ih =>
    intro x perm l hlen h
    unfold multidirectional_scan
    by_cases hlt : x < perm.length
    · rw [if_pos hlt, multidirectional_body_fixed l (by omega) (h x (le_refl x) hlt)]
      exact ih _ _ _ hlen (fun i hi => h i (by omega))
    · rw [if_neg hlt]

theorem fixed_from_range (m x : Nat) : fixed_from (List.range m) x := by
  intro i _ hi
  rw [List.getD_eq_getElem _ _ hi, List.getElem_range]

/-! ## Population count -/

theorem popcount_pos {v : Nat} (hv : v ≠ 0) (hlt : v < 4294967296) : 1 ≤ popcount v := by
  obtain ⟨i, hi⟩ := Nat.ne_zero_implies_bit_true hv
  have hi32 : i < 32 := by
    by_contra hge
    have : v.testBit i = false := by
      apply Nat.testBit_lt_two_pow
      calc v < 2 ^ 32 := by simpa using hlt
        _ ≤ 2 ^ i := Nat.pow_le_pow_right (by decide) (by omega)
    rw [this] at hi
    exact Bool.noConfusion hi
  unfold popcount
  apply List.length_pos_of_mem (a := i)
  rw [List.mem_filter]
  exact ⟨List.mem_range.mpr hi32, hi⟩

theorem popcount_two_pow {k : Nat} (hk : k < 16) : popcount (2 ^ k) = 1 := by
  interval_cases k <;> decide

theorem xor_ne_zero {a b : Nat} (h : a ≠ b) : a ^^^ b ≠ 0 := by
  intro h0
  apply h
  have := congrArg (fun v => v ^^^ b) h0
  simpa [Nat.xor_cancel_right] using this

theorem xor_lt_65536 {a b : Nat} (ha : a < 65536) (hb : b < 65536) : a ^^^ b < 65536 := by
  have := Nat.xor_lt_two_pow (n := 16) (by simpa using ha) (by simpa using hb)
  simpa using this

/-! ## The table of a single gate -/

theorem gate_table_eq_map (n c t : Nat) :
    gate_table n c t = (List.range (2 ^ n)).map (mct_apply (c, t)) := rfl

@[simp] theorem gate_table_length (n c t : Nat) : (gate_table n c t).length = 2 ^ n := by
  simp [gate_table]

theorem getD_gate_table (n c t i : Nat) (hi : i < 2 ^ n) :
    (gate_table n c t).getD i 0 = mct_apply (c, t) i := by
  rw [gate_table_eq_map, List.getD_eq_getElem _ _ (by simpa using hi)]
  simp

theorem gate_table_bijection {n c t : Nat} (hct : c &&& t = 0) (ht : t < 2 ^ n) :
    is_bijection (gate_table n c t) := by
  unfold is_bijection
  rw [gate_table_length]
  exact map_gate_range_perm hct ht

theorem update_gate_table {n c t : Nat} (hct : c &&& t = 0) :
    update_permutation (gate_table n c t) c t = List.range (2 ^ n) := by
  rw [update_permutation_eq_map, gate_table_eq_map, List.map_map]
  conv_rhs => rw [← List.map_id (List.range (2 ^ n))]
  apply List.map_congr_left
  intro z _
  exact mct_apply_involutive hct z

theorem gate_table_inv {n c t : Nat} (hct : c &&& t = 0) (ht : t < 2 ^ n) (hc : c < 2 ^ n) :
    scan_inv n (gate_table n c t) c :=
  ⟨gate_table_length n c t, gate_table_bijection hct ht, fun i hi => by
    rw [getD_gate_table n c t i (by omega), mct_apply_of_lt hi]⟩

theorem andn_xor_self {c t : Nat} (hct : c &&& t = 0) : c ^^^ (c &&& (c ^^^ t)) = 0 := by
  apply Nat.eq_of_testBit_eq; intro i
  have h := congrArg (fun v => Nat.testBit v i) hct
  simp only [Nat.testBit_and, Nat.zero_testBit] at h
  simp only [Nat.testBit_and, Nat.testBit_xor, Nat.zero_testBit]
  revert h
  cases c.testBit i <;> cases t.testBit i <;> simp

theorem xor_andn_self {c t : Nat} (hct : c &&& t = 0) :
    (c ^^^ t) ^^^ ((c ^^^ t) &&& c) = t := by
  apply Nat.eq_of_testBit_eq; intro i
  have h := congrArg (fun v => Nat.testBit v i) hct
  simp only [Nat.testBit_and, Nat.zero_testBit] at h
  simp only [Nat.testBit_and, Nat.testBit_xor]
  revert h
  cases c.testBit i <;> cases t.testBit i <;> simp

theorem mct_apply_self {c t : Nat} : mct_apply (c, t) c = c ^^^ t := by
  unfold mct_apply; simp

theorem xor_ne_self {c t : Nat} (ht : t ≠ 0) : c ^^^ t ≠ c := by
  intro h
  apply ht
  have := congrArg (fun v => c ^^^ v) h
  simpa [← Nat.xor_assoc] using this

/-- The unidirectional scan of the table of one gate records that gate. -/
theorem tbs_scan_gate_table {n c t : Nat} (hn : n ≤ 16) (hc : c < 2 ^ n) (ht : t < 2 ^ n)
    (ht0 : t ≠ 0) (hct : c &&& t = 0) :
    ∀ (fuel x : Nat), x ≤ c → 2 ^ n ≤ x + fuel →
      tbs_scan fuel x (gate_table n c t) [] = (List.range (2 ^ n), [(c, t)]) := by
  have h16 := pow_le_65536 hn
  intro fuel
  induction fuel with
  | zero => intro x hx hf; omega
  | succ fuel ih =>
    intro x hx hf
    unfold tbs_scan
    rw [if_pos (by rw [gate_table_length]; omega)]
    by_cases hxc : x = c
    · subst hxc
      have hy : (gate_table n x t).getD x 0 = x ^^^ t := by
        rw [getD_gate_table n x t x hc, mct_apply_self]
      rw [if_neg (by rw [hy]; exact xor_ne_self ht0)]
      rw [tbs_body_eq [] (by omega) (xor_lt_65536 (by omega) (by omega)) hy]
      simp only [andn_xor_self hct, xor_andn_self hct, update_permutation_zero,
        update_gate_table hct, ne_eq, not_true_eq_false, if_false, ht0, not_false_eq_true,
        if_true, List.nil_append]
      exact tbs_scan_fixed _ _ _ _ (fixed_from_range _ _)
    · have hlt : x < c := by omega
      rw [if_pos (by rw [getD_gate_table n c t x (by omega), mct_apply_of_lt hlt])]
      exact ih (x + 1) (by omega) (by omega)

theorem bidirectional_body_forward {x y : Nat} {perm : List Nat} (l : gate_list)
    (hx : x < 65536) (hy : y < 65536) (hyx : perm.getD x 0 = y)
    (hcost : popcount (x ^^^ y) ≤ popcount (x ^^^ u16 (find_from perm x))) :
    bidirectional_body x perm l =
      (update_permutation (update_permutation perm y (x ^^^ (x &&& y))) x (y ^^^ (y &&& x)),
        if y ^^^ (y &&& x) ≠ 0 then
          (if x ^^^ (x &&& y) ≠ 0 then l.emplace (y, x ^^^ (x &&& y)) else l).emplace
            (x, y ^^^ (y &&& x))
        else (if x ^^^ (x &&& y) ≠ 0 then l.emplace (y, x ^^^ (x &&& y)) else l)) := by
  unfold bidirectional_body
  simp only [hyx, hcost, if_true, u16_and_not32 hx hy, u16_not32_and hx hy, u16_of_lt hx,
    ite_pair, update_permutation_ite]

theorem multidirectional_body_self {x y : Nat} {perm : List Nat} (l : gate_list)
    (hx : x < 65536) (hy : y < 65536) (hyx : perm.getD x 0 = y)
    (hz : (cheapest perm x).1 = x) :
    multidirectional_body x perm l =
      (update_permutation (update_permutation perm y (x ^^^ (x &&& y))) x (y ^^^ (y &&& x)),
        if y ^^^ (y &&& x) ≠ 0 then
          (if x ^^^ (x &&& y) ≠ 0 then l.emplace (y, x ^^^ (x &&& y)) else l).emplace
            (x, y ^^^ (y &&& x))
        else (if x ^^^ (x &&& y) ≠ 0 then l.emplace (y, x ^^^ (x &&& y)) else l)) := by
  unfold multidirectional_body
  simp only [hz, hyx, u16_and_not32 hx hx, u16_not32_and hx hx, Nat.and_self, Nat.xor_self,
    ne_eq, not_true_eq_false, if_false, u16_and_not32 hx hy, u16_not32_and hx hy,
    u16_of_lt hx, ite_pair, update_permutation_ite]

/-- The bidirectional scan of the table of one single-target gate records that
gate (on the forward side, by the tie-break). -/
theorem bidirectional_scan_gate_table {n c k : Nat} (hn : n ≤ 16) (hc : c < 2 ^ n)
    (ht : 2 ^ k < 2 ^ n) (hct : c &&& 2 ^ k = 0) :
    ∀ (fuel x : Nat), x ≤ c → 2 ^ n ≤ x + fuel →
      bidirectional_scan fuel x (gate_table n c (2 ^ k)) gate_list.init =
        (List.range (2 ^ n), gate_list.init.emplace (c, 2 ^ k)) := by
  have h16 := pow_le_65536 hn
  have hk : k < 16 := by
    have := (Nat.pow_lt_pow_iff_right (a := 2) (by decide)).mp ht
    omega
  have ht0 : 2 ^ k ≠ 0 := by positivity
  intro fuel
  induction fuel with
  | zero => intro x hx hf; omega
  | succ fuel ih =>
    intro x hx hf
    unfold bidirectional_scan
    rw [if_pos (by rw [gate_table_length]; omega)]
    by_cases hxc : x = c
    · subst hxc
      have hy : (gate_table n x (2 ^ k)).getD x 0 = x ^^^ 2 ^ k := by
        rw [getD_gate_table n x _ x hc, mct_apply_self]
      have hne : (gate_table n x (2 ^ k)).getD x 0 ≠ x := by
        rw [hy]; exact xor_ne_self ht0
      rw [if_neg hne]
      obtain ⟨hs1, hs2, hs3⟩ := (gate_table_inv hct ht hc).find_from_spec hc
      have hxs : find_from (gate_table n x (2 ^ k)) x ≠ x := by
        intro e
        rw [e] at hs3
        exact hne hs3
      have hcost : popcount (x ^^^ (x ^^^ 2 ^ k)) ≤
          popcount (x ^^^ u16 (find_from (gate_table n x (2 ^ k)) x)) := by
        rw [u16_of_lt (by omega), ← Nat.xor_assoc, Nat.xor_self, Nat.zero_xor,
          popcount_two_pow hk]
        apply popcount_pos (xor_ne_zero (Ne.symm hxs))
        have := xor_lt_65536 (a := x) (b := find_from (gate_table n x (2 ^ k)) x)
          (by omega) (by omega)
        omega
      rw [bidirectional_body_forward _ (by omega) (xor_lt_65536 (by omega) (by omega)) hy hcost]
      simp only [andn_xor_self hct, xor_andn_self hct, update_permutation_zero,
        update_gate_table hct, ne_eq, not_true_eq_false, if_false, ht0, not_false_eq_true,
        if_true]
      exact bidirectional_scan_fixed _ _ _ _ (fixed_from_range _ _)
    · have hlt : x < c := by omega
      rw [if_pos (by rw [getD_gate_table n c _ x (by omega), mct_apply_of_lt hlt])]
      exact ih (x + 1) (by omega) (by omega)

/-- The multidirectional scan of the table of one single-target gate records
that gate: no other candidate is cheaper than the row itself. -/
theorem multidirectional_scan_gate_table {n c k : Nat} (hn : n ≤ 16) (hc : c < 2 ^ n)
    (ht : 2 ^ k < 2 ^ n) (hct : c &&& 2 ^ k = 0) :
    ∀ (fuel x : Nat), x ≤ c → 2 ^ n ≤ x + fuel →
      multidirectional_scan fuel x (gate_table n c (2 ^ k)) gate_list.init =
        (List.range (2 ^ n), gate_list.init.emplace (c, 2 ^ k)) := by
  have h16 := pow_le_65536 hn
  have hk : k < 16 := by
    have := (Nat.pow_lt_pow_iff_right (a := 2) (by decide)).mp ht
    omega
  have ht0 : 2 ^ k ≠ 0 := by positivity
  intro fuel
  induction fuel with
  | zero => intro x hx hf; omega
  | succ fuel ih =>
    intro x hx hf
    unfold multidirectional_scan
    rw [if_pos (by rw [gate_table_length]; omega)]
    by_cases hxc : x = c
    · subst hxc
      have hy : (gate_table n x (2 ^ k)).getD x 0 = x ^^^ 2 ^ k := by
        rw [getD_gate_table n x _ x hc, mct_apply_self]
      have hz : cheapest (gate_table n x (2 ^ k)) x = (x, 1) := by
        unfold cheapest
        rw [hy, ← Nat.xor_assoc, Nat.xor_self, Nat.zero_xor, popcount_two_pow hk]
        apply cheapest_fold_const
        intro z hz
        rw [List.mem_range'_1, gate_table_length] at hz
        unfold cost_f
        have : 1 ≤ popcount (z ^^^ x) := by
          apply popcount_pos (xor_ne_zero (by omega))
          have := xor_lt_65536 (a := z) (b := x) (by omega) (by omega)
          omega
        show 1 ≤ _
        omega
      rw [multidirectional_body_self _ (by omega) (xor_lt_65536 (by omega) (by omega)) hy
        (by rw [hz])]
      simp only [andn_xor_self hct, xor_andn_self hct, update_permutation_zero,
        update_gate_table hct, ne_eq, not_true_eq_false, if_false, ht0, not_false_eq_true,
        if_true]
      exact multidirectional_scan_fixed _ _ _ _ (by simpa using h16) (fixed_from_range _ _)
    · have hlt : x < c := by omega
      rw [multidirectional_body_fixed _ (by omega)
        (by rw [getD_gate_table n c _ x (by omega), mct_apply_of_lt hlt])]
      exact ih (x + 1) (by omega) (by omega)

/-! ## Properties of the synthesis strategies -/

/-- C1. Unidirectional round-trip: for `n ≤ 16` and a table `p` of length `2^n`
that is a bijection on `[0, 2^n)`, the gates emitted by
`transformation_based_synthesis` (the recorded gates, reversed), applied in
emitted order to an input `i < 2^n` under MCT semantics, yield `p[i]`. -/
theorem unidirectional_round_trip (n : Nat) (p : List Nat) (i : Nat) (hn : n ≤ 16)
    (hlen : p.length = 2 ^ n) (hp : is_bijection p) (hi : i < 2 ^ n) :
    p[i]? = some (simulate (transformation_based_synthesis p).1.gates i) := by
  obtain ⟨h1, h2⟩ := tbs_scan_spec hn p (2 ^ n) 0 p [] (scan_inv.start hlen hp)
    (Nat.zero_le _) (by omega) (replays.initial n p)
  have h3 := h2 i hi
  rw [h1, List.getD_eq_getElem _ _ (by simpa using hi), List.getElem_range] at h3
  unfold transformation_based_synthesis
  simp only [emit_new_circuit_gates, hlen]
  rw [h3, List.getD_eq_getElem _ _ (by omega), List.getElem?_eq_getElem (by omega)]

theorem unidirectional_round_trip_witness :
    [1, 2, 3, 0][0]? = some (simulate (transformation_based_synthesis [1, 2, 3, 0]).1.gates 0) :=
  unidirectional_round_trip 2 [1, 2, 3, 0] 0 (by decide) (by decide) (by decide) (by decide)

/-- C2, at the failing input `[1, 2, 3, 0]`: the table is a bijection on
`[0, 4)`, both rows are repaired on the forward side, the bidirectional
strategy emits `(0, 1)` then `(1, 2)` (the recording order, not its reverse),
and this circuit sends input `0` to `3` although `p[0] = 1`. -/
theorem bidirectional_round_trip_fails :
    is_bijection [1, 2, 3, 0] ∧
    popcount (0 ^^^ 1) ≤ popcount (0 ^^^ u16 (find_from [1, 2, 3, 0] 0)) ∧
    popcount (1 ^^^ 3) ≤ popcount (1 ^^^ u16 (find_from [0, 3, 2, 1] 1)) ∧
    (transformation_based_synthesis_bidirectional [1, 2, 3, 0]).1.gates = [(0, 1), (1, 2)] ∧
    simulate (transformation_based_synthesis_bidirectional [1, 2, 3, 0]).1.gates 0 = 3 ∧
    [1, 2, 3, 0][0]? = some 1 ∧
    (transformation_based_synthesis [1, 2, 3, 0]).1.gates = [(1, 2), (0, 1)] := by
  decide

/-- C3, at the failing input `[1, 2, 3, 0]`: every row is its own cheapest
candidate, the multidirectional strategy emits `(0, 1)` then `(1, 2)` (the
recording order of the forward gates, not its reverse), and this circuit sends
input `0` to `3` although `p[0] = 1`. -/
theorem multidirectional_round_trip_fails :
    is_bijection [1, 2, 3, 0] ∧
    (cheapest [1, 2, 3, 0] 0).1 = 0 ∧ (cheapest [0, 3, 2, 1] 1).1 = 1 ∧
    (transformation_based_synthesis_multidirectional [1, 2, 3, 0]).1.gates =
      [(0, 1), (1, 2)] ∧
    simulate (transformation_based_synthesis_multidirectional [1, 2, 3, 0]).1.gates 0 = 3 ∧
    [1, 2, 3, 0][0]? = some 1 := by
  decide

/-- C4. Identity input gives the empty circuit: for `n ≤ 16` and the identity
table on `[0, 2^n)`, each of the three strategies emits no gate and leaves the
table unchanged. -/
theorem identity_input_no_gates (n : Nat) (hn : n ≤ 16) :
    ((transformation_based_synthesis (List.range (2 ^ n))).1.gates = [] ∧
      (transformation_based_synthesis (List.range (2 ^ n))).2 = List.range (2 ^ n)) ∧
    ((transformation_based_synthesis_bidirectional (List.range (2 ^ n))).1.gates = [] ∧
      (transformation_based_synthesis_bidirectional (List.range (2 ^ n))).2 =
        List.range (2 ^ n)) ∧
    ((transformation_based_synthesis_multidirectional (List.range (2 ^ n))).1.gates = [] ∧
      (transformation_based_synthesis_multidirectional (List.range (2 ^ n))).2 =
        List.range (2 ^ n)) := by
  have h16 : (List.range (2 ^ n)).length ≤ 65536 := by simpa using pow_le_65536 hn
  unfold transformation_based_synthesis transformation_based_synthesis_bidirectional
    transformation_based_synthesis_multidirectional
  simp only [emit_new_circuit_gates,
    tbs_scan_fixed _ _ _ _ (fixed_from_range (2 ^ n) 0),
    bidirectional_scan_fixed _ _ _ _ (fixed_from_range (2 ^ n) 0),
    multidirectional_scan_fixed _ _ _ _ h16 (fixed_from_range (2 ^ n) 0)]
  simp [gate_list.init]

theorem identity_input_no_gates_witness :
    ((transformation_based_synthesis (List.range (2 ^ 1))).1.gates = [] ∧
      (transformation_based_synthesis (List.range (2 ^ 1))).2 = List.range (2 ^ 1)) ∧
    ((transformation_based_synthesis_bidirectional (List.range (2 ^ 1))).1.gates = [] ∧
      (transformation_based_synthesis_bidirectional (List.range (2 ^ 1))).2 =
        List.range (2 ^ 1)) ∧
    ((transformation_based_synthesis_multidirectional (List.range (2 ^ 1))).1.gates = [] ∧
      (transformation_based_synthesis_multidirectional (List.range (2 ^ 1))).2 =
        List.range (2 ^ 1)) :=
  identity_input_no_gates 1 (by decide)

/-- C5. Unidirectional fixed point: for `n ≤ 16` and a bijective table of length
`2^n`, the table left by the scan of `transformation_based_synthesis` is the
identity table `0, 1, ..., 2^n - 1`. -/
theorem unidirectional_fixed_point (n : Nat) (p : List Nat) (hn : n ≤ 16)
    (hlen : p.length = 2 ^ n) (hp : is_bijection p) :
    (transformation_based_synthesis p).2 = List.range (2 ^ n) := by
  unfold transformation_based_synthesis
  simp only [hlen]
  exact (tbs_scan_spec hn p (2 ^ n) 0 p [] (scan_inv.start hlen hp)
    (Nat.zero_le _) (by omega) (replays.initial n p)).1

theorem unidirectional_fixed_point_witness :
    (transformation_based_synthesis [1, 2, 3, 0]).2 = List.range (2 ^ 2) :=
  unidirectional_fixed_point 2 [1, 2, 3, 0] (by decide) (by decide) (by decide)

/-- C6. Bidirectional fixed point: for `n ≤ 16` and a bijective table of length
`2^n`, the table left by the scan of
`transformation_based_synthesis_bidirectional` is the identity table, whatever
mix of forward and backward repairs was taken. -/
theorem bidirectional_fixed_point (n : Nat) (p : List Nat) (hn : n ≤ 16)
    (hlen : p.length = 2 ^ n) (hp : is_bijection p) :
    (transformation_based_synthesis_bidirectional p).2 = List.range (2 ^ n) := by
  unfold transformation_based_synthesis_bidirectional
  simp only [hlen]
  exact bidirectional_scan_table hn (2 ^ n) 0 p _ (scan_inv.start hlen hp)
    (Nat.zero_le _) (by omega)

theorem bidirectional_fixed_point_witness :
    (transformation_based_synthesis_bidirectional [3, 0, 1, 2]).2 = List.range (2 ^ 2) :=
  bidirectional_fixed_point 2 [3, 0, 1, 2] (by decide) (by decide) (by decide)

/-- C7. Multidirectional fixed point: for `n ≤ 16` and a bijective table of
length `2^n`, the table left by the scan of
`transformation_based_synthesis_multidirectional` is the identity table,
whichever candidate the search selected at each row. -/
theorem multidirectional_fixed_point (n : Nat) (p : List Nat) (hn : n ≤ 16)
    (hlen : p.length = 2 ^ n) (hp : is_bijection p) :
    (transformation_based_synthesis_multidirectional p).2 = List.range (2 ^ n) := by
  unfold transformation_based_synthesis_multidirectional
  simp only [hlen]
  exact multidirectional_scan_table hn (2 ^ n) 0 p _ (scan_inv.start hlen hp)
    (Nat.zero_le _) (by omega)

theorem multidirectional_fixed_point_witness :
    (transformation_based_synthesis_multidirectional [3, 0, 1, 2]).2 = List.range (2 ^ 2) :=
  multidirectional_fixed_point 2 [3, 0, 1, 2] (by decide) (by decide) (by decide)

/-- C8. Bijection preservation: for a table of length `2^n` that is a bijection
on `[0, 2^n)` and a gate with `control & target == 0` and both masks below
`2^n`, the table after `update_permutation` is again a bijection on
`[0, 2^n)` (same length), and so is the table after `update_permutation_inv`. -/
theorem update_primitives_keep_bijection (n : Nat) (perm : List Nat) (c t : Nat)
    (hlen : perm.length = 2 ^ n) (hb : is_bijection perm) (hct : c &&& t = 0)
    (_hc : c < 2 ^ n) (ht : t < 2 ^ n) :
    ((update_permutation perm c t).length = 2 ^ n ∧
      is_bijection (update_permutation perm c t)) ∧
    ((update_permutation_inv perm c t).length = 2 ^ n ∧
      is_bijection (update_permutation_inv perm c t)) :=
  ⟨⟨by simpa using hlen, update_permutation_bijection hlen hb hct ht⟩,
    ⟨by simpa using hlen, update_permutation_inv_bijection hlen hb hct ht⟩⟩

theorem update_primitives_keep_bijection_witness :
    ((update_permutation [1, 2, 3, 0] 1 2).length = 2 ^ 2 ∧
      is_bijection (update_permutation [1, 2, 3, 0] 1 2)) ∧
    ((update_permutation_inv [1, 2, 3, 0] 1 2).length = 2 ^ 2 ∧
      is_bijection (update_permutation_inv [1, 2, 3, 0] 1 2)) :=
  update_primitives_keep_bijection 2 [1, 2, 3, 0] 1 2 (by decide) (by decide) (by decide)
    (by decide) (by decide)

/-- C9. Synthesis of a single gate returns that gate: for `n ≤ 16`, a control
mask `c < 2^n` and a single-bit target mask `t = 2^k < 2^n` with `c & t == 0`,
on the table of the gate each of the three strategies emits exactly the one
gate `(c, t)`. -/
theorem single_gate_synthesis (n c k : Nat) (hn : n ≤ 16) (hc : c < 2 ^ n)
    (ht : 2 ^ k < 2 ^ n) (hct : c &&& 2 ^ k = 0) :
    (transformation_based_synthesis (gate_table n c (2 ^ k))).1.gates = [(c, 2 ^ k)] ∧
    (transformation_based_synthesis_bidirectional (gate_table n c (2 ^ k))).1.gates =
      [(c, 2 ^ k)] ∧
    (transformation_based_synthesis_multidirectional (gate_table n c (2 ^ k))).1.gates =
      [(c, 2 ^ k)] := by
  have ht0 : 2 ^ k ≠ 0 := by positivity
  unfold transformation_based_synthesis transformation_based_synthesis_bidirectional
    transformation_based_synthesis_multidirectional
  simp only [emit_new_circuit_gates, gate_table_length,
    tbs_scan_gate_table hn hc ht ht0 hct (2 ^ n) 0 (Nat.zero_le _) (by omega),
    bidirectional_scan_gate_table hn hc ht hct (2 ^ n) 0 (Nat.zero_le _) (by omega),
    multidirectional_scan_gate_table hn hc ht hct (2 ^ n) 0 (Nat.zero_le _) (by omega)]
  simp [gate_list.init, gate_list.emplace]

theorem single_gate_synthesis_witness :
    (gate_table 1 0 (2 ^ 0) = [1, 0] ∧ gate_table 2 0 (2 ^ 0) = [1, 0, 3, 2]) ∧
    ((transformation_based_synthesis (gate_table 2 0 (2 ^ 0))).1.gates = [(0, 2 ^ 0)] ∧
    (transformation_based_synthesis_bidirectional (gate_table 2 0 (2 ^ 0))).1.gates =
      [(0, 2 ^ 0)] ∧
    (transformation_based_synthesis_multidirectional (gate_table 2 0 (2 ^ 0))).1.gates =
      [(0, 2 ^ 0)]) :=
  ⟨by decide, single_gate_synthesis 2 0 0 (by decide) (by decide) (by decide) (by decide)⟩

/-- C10 as stated fails: on the table `[0, 1, 3, 2]` no strategy emits the gate
list `[(1, 2)]` (control mask 1, target mask 2). -/
theorem scenario_0132_not_control_1_target_2 :
    (transformation_based_synthesis [0, 1, 3, 2]).1.gates ≠ [(1, 2)] ∧
    (transformation_based_synthesis_bidirectional [0, 1, 3, 2]).1.gates ≠ [(1, 2)] ∧
    (transformation_based_synthesis_multidirectional [0, 1, 3, 2]).1.gates ≠ [(1, 2)] := by
  decide

/-- C10, amended: on the table `[0, 1, 3, 2]` of size 4 each strategy emits
exactly one gate, with control mask 2 and target mask 1 (bit 0 is flipped when
bit 1 is set), and that gate realises the table. -/
theorem scenario_0132_control_2_target_1 :
    (transformation_based_synthesis [0, 1, 3, 2]).1.gates = [(2, 1)] ∧
    (transformation_based_synthesis_bidirectional [0, 1, 3, 2]).1.gates = [(2, 1)] ∧
    (transformation_based_synthesis_multidirectional [0, 1, 3, 2]).1.gates = [(2, 1)] ∧
    [0, 1, 2, 3].map (simulate [(2, 1)]) = [0, 1, 3, 2] := by
  decide

/-! ## Every emitted gate is well formed -/

theorem mem_emplace (l : gate_list) (g h : Gate) :
    h ∈ (l.emplace g).gates ↔ h = g ∨ h ∈ l.gates := by
  unfold gate_list.emplace
  simp only [List.mem_append, List.mem_cons]
  conv_rhs => rw [← List.take_append_drop l.pos l.gates, List.mem_append]
  constructor
  · rintro (h1 | h1 | h1)
    · exact Or.inr (Or.inl h1)
    · exact Or.inl h1
    · exact Or.inr (Or.inr h1)
  · rintro (h1 | h1 | h1)
    · exact Or.inr (Or.inl h1)
    · exact Or.inl h1
    · exact Or.inr (Or.inr h1)

theorem mem_emplace_post_inc (l : gate_list) (g h : Gate) :
    h ∈ (l.emplace_post_inc g).gates ↔ h = g ∨ h ∈ l.gates := by
  unfold gate_list.emplace_post_inc
  simp only [List.mem_append, List.mem_cons]
  conv_rhs => rw [← List.take_append_drop l.pos l.gates, List.mem_append]
  constructor
  · rintro (h1 | h1 | h1)
    · exact Or.inr (Or.inl h1)
    · exact Or.inl h1
    · exact Or.inr (Or.inr h1)
  · rintro (h1 | h1 | h1)
    · exact Or.inr (Or.inl h1)
    · exact Or.inl h1
    · exact Or.inr (Or.inr h1)

theorem all_cond_append {P : Gate → Prop} {gates : List Gate} {c t : Nat}
    (h : ∀ g ∈ gates, P g) (hg : t ≠ 0 → P (c, t)) :
    ∀ g ∈ (if t ≠ 0 then gates ++ [(c, t)] else gates), P g := by
  intro g hmem
  split at hmem
  · rename_i ht
    rw [List.mem_append, List.mem_singleton] at hmem
    rcases hmem with h1 | h1
    · exact h g h1
    · rw [h1]; exact hg ht
  · exact h g hmem

theorem all_cond_emplace {P : Gate → Prop} {l : gate_list} {c t : Nat}
    (h : ∀ g ∈ l.gates, P g) (hg : t ≠ 0 → P (c, t)) :
    ∀ g ∈ (if t ≠ 0 then l.emplace (c, t) else l).gates, P g := by
  intro g hmem
  split at hmem
  · rename_i ht
    rw [mem_emplace] at hmem
    rcases hmem with h1 | h1
    · rw [h1]; exact hg ht
    · exact h g h1
  · exact h g hmem

theorem all_cond_emplace_post_inc {P : Gate → Prop} {l : gate_list} {c t : Nat}
    (h : ∀ g ∈ l.gates, P g) (hg : t ≠ 0 → P (c, t)) :
    ∀ g ∈ (if t ≠ 0 then l.emplace_post_inc (c, t) else l).gates, P g := by
  intro g hmem
  split at hmem
  · rename_i ht
    rw [mem_emplace_post_inc] at hmem
    rcases hmem with h1 | h1
    · rw [h1]; exact hg ht
    · exact h g h1
  · exact h g hmem

/-- The gate that sets or clears the bits of `a` missing in `b`, controlled by
`b`, is well formed once it has a target. -/
theorem gate_ok_repair {n a b : Nat} (ha : a < 2 ^ n) (hb : b < 2 ^ n)
    (ht : a ^^^ (a &&& b) ≠ 0) : gate_ok n (b, a ^^^ (a &&& b)) :=
  ⟨andn_disjoint a b, hb, lt_of_le_of_lt (andn_le a b) ha, ht⟩

theorem tbs_body_inv {n x : Nat} {perm : List Nat} (gates : List Gate) (hn : n ≤ 16)
    (h : scan_inv n perm x) (hx : x < 2 ^ n) :
    scan_inv n (tbs_body x perm gates).1 (x + 1) := by
  have h16 := pow_le_65536 hn
  have hyN := h.entry_lt hx
  rw [tbs_body_eq gates (by omega) (by omega) rfl]
  exact h.forward hx (h.le_getD (le_refl x) hx) hyN rfl

theorem tbs_body_gates_ok {n x : Nat} {perm : List Nat} {gates : List Gate} (hn : n ≤ 16)
    (h : scan_inv n perm x) (hx : x < 2 ^ n) (hg : ∀ g ∈ gates, gate_ok n g) :
    ∀ g ∈ (tbs_body x perm gates).2, gate_ok n g := by
  have h16 := pow_le_65536 hn
  have hyN := h.entry_lt hx
  rw [tbs_body_eq gates (by omega) (by omega) rfl]
  exact all_cond_append (all_cond_append hg (gate_ok_repair hx hyN)) (gate_ok_repair hyN hx)

theorem tbs_scan_gates_ok {n : Nat} (hn : n ≤ 16) :
    ∀ (fuel x : Nat) (perm : List Nat) (gates : List Gate),
      scan_inv n perm x → (∀ g ∈ gates, gate_ok n g) →
      ∀ g ∈ (tbs_scan fuel x perm gates).2, gate_ok n g := by
  intro fuel
  induction fuel with
  | zero => intro x perm gates _ hg; exact hg
  | succ fuel ih =>
    intro x perm gates hinv hg
    unfold tbs_scan
    by_cases hlt : x < perm.length
    · rw [if_pos hlt]
      have hxN : x < 2 ^ n := by rw [← hinv.len]; exact hlt
      by_cases hfix : perm.getD x 0 = x
      · rw [if_pos hfix]
        exact ih (x + 1) perm gates (hinv.skip hfix) hg
      · rw [if_neg hfix]
        exact ih (x + 1) _ _ (tbs_body_inv gates hn hinv hxN)
          (tbs_body_gates_ok hn hinv hxN hg)
    · rw [if_neg hlt]; exact hg

theorem bidirectional_body_backward {x xs : Nat} {perm : List Nat} (l : gate_list)
    (hx : x < 65536) (hxs : xs < 65536) (hxsx : find_from perm x = xs)
    (hcost : ¬ popcount (x ^^^ perm.getD x 0) ≤ popcount (x ^^^ xs)) :
    bidirectional_body x perm l =
      (update_permutation_inv (update_permutation_inv perm xs (x ^^^ (x &&& xs))) x
          (xs ^^^ (xs &&& x)),
        if xs ^^^ (xs &&& x) ≠ 0 then
          (if x ^^^ (x &&& xs) ≠ 0 then l.emplace_post_inc (xs, x ^^^ (x &&& xs))
            else l).emplace_post_inc (x, xs ^^^ (xs &&& x))
        else (if x ^^^ (x &&& xs) ≠ 0 then l.emplace_post_inc (xs, x ^^^ (x &&& xs))
          else l)) := by
  unfold bidirectional_body
  simp only [hxsx, u16_of_lt hxs, hcost, if_false, u16_and_not32 hxs hx,
    u16_not32_and hxs hx, u16_of_lt hx, ite_pair, update_permutation_inv_ite]

theorem bidirectional_body_inv {n x : Nat} {perm : List Nat} (l : gate_list) (hn : n ≤ 16)
    (h : scan_inv n perm x) (hx : x < 2 ^ n) :
    scan_inv n (bidirectional_body x perm l).1 (x + 1) := by
  have h16 := pow_le_65536 hn
  have hyN := h.entry_lt hx
  obtain ⟨hs1, hs2, hs3⟩ := h.find_from_spec hx
  rw [bidirectional_body_table l (by omega) (by omega) (by omega) rfl rfl]
  split
  · exact h.forward hx (h.le_getD (le_refl x) hx) hyN rfl
  · obtain ⟨hb, hbx⟩ := h.backward hx hs1 hs2
    exact hb.skip (by rw [hbx, hs3])

theorem bidirectional_body_gates_ok {n x : Nat} {perm : List Nat} {l : gate_list}
    (hn : n ≤ 16) (h : scan_inv n perm x) (hx : x < 2 ^ n)
    (hg : ∀ g ∈ l.gates, gate_ok n g) :
    ∀ g ∈ (bidirectional_body x perm l).2.gates, gate_ok n g := by
  have h16 := pow_le_65536 hn
  have hyN := h.entry_lt hx
  obtain ⟨hs1, hs2, hs3⟩ := h.find_from_spec hx
  by_cases hcost : popcount (x ^^^ perm.getD x 0) ≤
      popcount (x ^^^ u16 (find_from perm x))
  · rw [bidirectional_body_forward l (by omega) (by omega) rfl hcost]
    exact all_cond_emplace (all_cond_emplace hg (gate_ok_repair hx hyN))
      (gate_ok_repair hyN hx)
  · rw [u16_of_lt (by omega)] at hcost
    rw [bidirectional_body_backward l (by omega) (by omega) rfl hcost]
    exact all_cond_emplace_post_inc (all_cond_emplace_post_inc hg (gate_ok_repair hx hs2))
      (gate_ok_repair hs2 hx)

theorem bidirectional_scan_gates_ok {n : Nat} (hn : n ≤ 16) :
    ∀ (fuel x : Nat) (perm : List Nat) (l : gate_list),
      scan_inv n perm x → (∀ g ∈ l.gates, gate_ok n g) →
      ∀ g ∈ (bidirectional_scan fuel x perm l).2.gates, gate_ok n g := by
  intro fuel
  induction fuel with
  | zero => intro x perm l _ hg; exact hg
  | succ fuel ih =>
    intro x perm l hinv hg
    unfold bidirectional_scan
    by_cases hlt : x < perm.length
    · rw [if_pos hlt]
      have hxN : x < 2 ^ n := by rw [← hinv.len]; exact hlt
      by_cases hfix : perm.getD x 0 = x
      · rw [if_pos hfix]
        exact ih (x + 1) perm l (hinv.skip hfix) hg
      · rw [if_neg hfix]
        exact ih (x + 1) _ _ (bidirectional_body_inv l hn hinv hxN)
          (bidirectional_body_gates_ok hn hinv hxN hg)
    · rw [if_neg hlt]; exact hg

theorem multidirectional_body_inv {n x : Nat} {perm : List Nat} (l : gate_list) (hn : n ≤ 16)
    (h : scan_inv n perm x) (hx : x < 2 ^ n) :
    scan_inv n (multidirectional_body x perm l).1 (x + 1) := by
  have h16 := pow_le_65536 hn
  obtain ⟨hz1, hz2⟩ := cheapest_bounds perm x (by rw [h.len]; exact hx)
  rw [h.len] at hz2
  have hyN := h.entry_lt hz2
  rw [multidirectional_body_table l (by omega) (by omega) (by omega) rfl rfl]
  obtain ⟨hb, hbx⟩ := h.backward hx hz1 hz2
  exact hb.forward hx (h.le_getD hz1 hz2) hyN hbx

theorem multidirectional_body_gates_ok {n x : Nat} {perm : List Nat} {l : gate_list}
    (hn : n ≤ 16) (h : scan_inv n perm x) (hx : x < 2 ^ n)
    (hg : ∀ g ∈ l.gates, gate_ok n g) :
    ∀ g ∈ (multidirectional_body x perm l).2.gates, gate_ok n g := by
  have h16 := pow_le_65536 hn
  obtain ⟨hz1, hz2⟩ := cheapest_bounds perm x (by rw [h.len]; exact hx)
  rw [h.len] at hz2
  have hyN := h.entry_lt hz2
  have hx16 : x < 65536 := by omega
  have hz16 : (cheapest perm x).1 < 65536 := by omega
  have hy16 : perm.getD (cheapest perm x).1 0 < 65536 := by omega
  unfold multidirectional_body
  simp only [u16_and_not32 hx16 hy16, u16_not32_and hx16 hy16, u16_and_not32 hz16 hx16,
    u16_not32_and hz16 hx16, u16_of_lt hx16, u16_of_lt hz16, ite_pair]
  exact all_cond_emplace (all_cond_emplace (all_cond_emplace_post_inc
    (all_cond_emplace_post_inc hg (gate_ok_repair hx hz2)) (gate_ok_repair hz2 hx))
    (gate_ok_repair hx hyN)) (gate_ok_repair hyN hx)

theorem multidirectional_scan_gates_ok {n : Nat} (hn : n ≤ 16) :
    ∀ (fuel x : Nat) (perm : List Nat) (l : gate_list),
      scan_inv n perm x → (∀ g ∈ l.gates, gate_ok n g) →
      ∀ g ∈ (multidirectional_scan fuel x perm l).2.gates, gate_ok n g := by
  intro fuel
  induction fuel with
  | zero => intro x perm l _ hg; exact hg
  | succ fuel ih =>
    intro x perm l hinv hg
    unfold multidirectional_scan
    by_cases hlt : x < perm.length
    · rw [if_pos hlt]
      have hxN : x < 2 ^ n := by rw [← hinv.len]; exact hlt
      exact ih (x + 1) _ _ (multidirectional_body_inv l hn hinv hxN)
        (multidirectional_body_gates_ok hn hinv hxN hg)
    · rw [if_neg hlt]; exact hg

/-- Every gate emitted by any of the three strategies on a bijective table of
length `2^n`, `n ≤ 16`, is well formed. -/
theorem strategies_gates_ok {n : Nat} {p : List Nat} (hn : n ≤ 16)
    (hlen : p.length = 2 ^ n) (hp : is_bijection p) :
    (∀ g ∈ (transformation_based_synthesis p).1.gates, gate_ok n g) ∧
    (∀ g ∈ (transformation_based_synthesis_bidirectional p).1.gates, gate_ok n g) ∧
    (∀ g ∈ (transformation_based_synthesis_multidirectional p).1.gates, gate_ok n g) := by
  have h0 := scan_inv.start hlen hp
  unfold transformation_based_synthesis transformation_based_synthesis_bidirectional
    transformation_based_synthesis_multidirectional
  simp only [emit_new_circuit_gates]
  refine ⟨?_, ?_, ?_⟩
  · intro g hg
    rw [List.mem_reverse] at hg
    exact tbs_scan_gates_ok hn _ 0 p [] h0 (fun _ h => absurd h (List.not_mem_nil _)) g hg
  · exact bidirectional_scan_gates_ok hn _ 0 p _ h0
      (fun _ h => absurd h (List.not_mem_nil _))
  · exact multidirectional_scan_gates_ok hn _ 0 p _ h0
      (fun _ h => absurd h (List.not_mem_nil _))

/-! ## The cheapest candidate -/

theorem cheapest_fold_argmin (perm : List Nat) (x : Nat) :
    ∀ (m s : Nat) (best : Nat × Nat),
      x ≤ best.1 → best.1 < s → best.2 = cost_f perm x best.1 →
      (∀ z, x ≤ z → z < s → best.2 ≤ cost_f perm x z) →
      (∀ z, x ≤ z → z < best.1 → best.2 < cost_f perm x z) →
      x ≤ ((List.range' s m).foldl (cheapest_step perm x) best).1 ∧
      ((List.range' s m).foldl (cheapest_step perm x) best).1 < s + m ∧
      ((List.range' s m).foldl (cheapest_step perm x) best).2 =
        cost_f perm x ((List.range' s m).foldl (cheapest_step perm x) best).1 ∧
      (∀ z, x ≤ z → z < s + m →
        ((List.range' s m).foldl (cheapest_step perm x) best).2 ≤ cost_f perm x z) ∧
      (∀ z, x ≤ z → z < ((List.range' s m).foldl (cheapest_step perm x) best).1 →
        ((List.range' s m).foldl (cheapest_step perm x) best).2 < cost_f perm x z) := by
  intro m
  induction m with
  | zero =>
    intro s best h1 h2 h3 h4 h5
    exact ⟨h1, by simpa using h2, h3, by simpa using h4, h5⟩
  | succ m ih =>
    intro s best h1 h2 h3 h4 h5
    rw [List.range'_succ, List.foldl_cons]
    have e : s + (m + 1) = (s + 1) + m := by omega
    rw [e]
    by_cases hc : cost_f perm x s < best.2
    · have hstep : cheapest_step perm x best s = (s, cost_f perm x s) := by
        unfold cheapest_step; rw [if_pos hc]
      rw [hstep]
      apply ih (s + 1) (s, cost_f perm x s) (by show x ≤ s; omega) (by show s < s + 1; omega) rfl
      · intro z hz1 hz2
        show cost_f perm x s ≤ cost_f perm x z
        by_cases hzs : z = s
        · rw [hzs]
        · have := h4 z hz1 (by omega)
          omega
      · intro z hz1 hz2
        show cost_f perm x s < cost_f perm x z
        have := h4 z hz1 hz2
        omega
    · have hstep : cheapest_step perm x best s = best := by
        unfold cheapest_step; rw [if_neg hc]
      rw [hstep]
      apply ih (s + 1) best h1 (by omega) h3 _ h5
      intro z hz1 hz2
      by_cases hzs : z = s
      · rw [hzs]; omega
      · exact h4 z hz1 (by omega)

theorem cost_f_self (perm : List Nat) (x : Nat) :
    cost_f perm x x = popcount (x ^^^ perm.getD x 0) := by
  unfold cost_f
  rw [Nat.xor_self, popcount_zero, Nat.zero_add]

/-- The inner search returns the least row at or behind `x` of minimal cost,
together with that cost. -/
theorem cheapest_argmin (perm : List Nat) (x : Nat) (hx : x < perm.length) :
    x ≤ (cheapest perm x).1 ∧ (cheapest perm x).1 < perm.length ∧
    (cheapest perm x).2 = cost_f perm x (cheapest perm x).1 ∧
    (∀ z, x ≤ z → z < perm.length →
      cost_f perm x (cheapest perm x).1 ≤ cost_f perm x z) ∧
    (∀ z, x ≤ z → z < (cheapest perm x).1 →
      cost_f perm x (cheapest perm x).1 < cost_f perm x z) := by
  have e : perm.length = (x + 1) + (perm.length - (x + 1)) := by omega
  have h := cheapest_fold_argmin perm x (perm.length - (x + 1)) (x + 1)
    (x, popcount (x ^^^ perm.getD x 0)) (le_refl x) (Nat.lt_succ_self x)
    (cost_f_self perm x).symm
    (fun z hz1 hz2 => by
      have : z = x := by omega
      rw [this, cost_f_self])
    (fun z hz1 hz2 => absurd hz2 (by show ¬ z < x; omega))
  rw [← e] at h
  obtain ⟨h1, h2, h3, h4, h5⟩ := h
  have hc : cheapest perm x = List.foldl (cheapest_step perm x)
      (x, popcount (x ^^^ perm.getD x 0)) (List.range' (x + 1) (perm.length - (x + 1))) := rfl
  rw [hc]
  refine ⟨h1, h2, h3, ?_, ?_⟩
  · intro z hz1 hz2
    rw [← h3]; exact h4 z hz1 hz2
  · intro z hz1 hz2
    rw [← h3]; exact h5 z hz1 hz2

/-- A bijective table of `uint16_t` entries has at most `2^16` rows. -/
theorem le_16_of_typed {n : Nat} {perm : List Nat} (hlen : perm.length = 2 ^ n)
    (hb : is_bijection perm) (htype : ∀ v ∈ perm, v < 65536) : n ≤ 16 := by
  by_contra hgt
  have h17 : 2 ^ 17 ≤ 2 ^ n := Nat.pow_le_pow_right (by decide) (by omega)
  have hmem : 65536 ∈ perm := hb.mem (by rw [hlen]; omega)
  have := htype _ hmem
  omega

theorem to_int32_of_lt {v : Nat} (h : v < 2147483648) : to_int32 v = (v : Int) := by
  unfold to_int32
  rw [Nat.mod_eq_of_lt (by omega), if_pos h]

theorem to_int32_overflow : to_int32 2147483648 = -2147483648 := by decide

theorem set_last_default {T : Type} (data : List T) (d : T) :
    (data ++ [d]).set data.length d = data ++ [d] := by
  induction data with
  | nil => rfl
  | cons a as ih => simp [List.set, ih]

/-- A call of `extend()` on a store with fewer than `2^31` entries returns
normally: the entries are kept, a default entry is added behind them and
becomes the current one. -/
theorem extend_of_lt {T : Type} [Inhabited T] (s : cli_store T)
    (h : s._data.length < 2147483648) :
    s.extend = (⟨s._name, s._data ++ [default], (s._data.length : Int)⟩, none) := by
  unfold cli_store.extend
  simp only [to_int32_of_lt h]
  rw [if_neg (by omega), Int.toNat_ofNat, set_last_default]

/-- A call of `extend()` on a store with exactly `2^31` entries: the old size
does not fit `int`, `_current` becomes negative and the inner `current()`
throws. -/
theorem extend_overflow {T : Type} [Inhabited T] (s : cli_store T)
    (h : s._data.length = 2147483648) :
    s.extend = (⟨s._name, s._data ++ [default], -2147483648⟩, some (no_current_message s._name)) := by
  unfold cli_store.extend
  simp only [h, to_int32_overflow]
  rw [if_pos (by decide)]

theorem calls_nil {T : Type} [Inhabited T] (s : cli_store T) : s.calls [] = s := rfl

theorem calls_cons {T : Type} [Inhabited T] (s : cli_store T) (c : store_call)
    (cs : List store_call) : s.calls (c :: cs) = (s.call c).calls cs := rfl

theorem calls_concat {T : Type} [Inhabited T] (s : cli_store T) (c : store_call)
    (cs : List store_call) : s.calls (cs ++ [c]) = (s.calls cs).call c := by
  unfold cli_store.calls
  rw [List.foldl_append]
  rfl

/-- The invariant of the store: same name, `_current` is the last index, and
the entries fit the range of `int`. -/
theorem calls_invariant {T : Type} [Inhabited T] :
    ∀ (cs : List store_call) (s : cli_store T),
      s._current = (s._data.length : Int) - 1 →
      s._data.length + cs.length ≤ 2147483648 →
      (s.calls cs)._name = s._name ∧
      (s.calls cs)._current = ((s.calls cs)._data.length : Int) - 1 ∧
      (s.calls cs)._data.length ≤ s._data.length + cs.length := by
  intro cs
  induction cs with
  | nil =>
    intro s h1 _
    exact ⟨rfl, h1, by simp [calls_nil]⟩
  | cons c cs ih =>
    intro s h1 h2
    rw [calls_cons]
    rw [List.length_cons] at h2
    cases c with
    | extend =>
      have he := extend_of_lt s (by omega)
      have hc : s.call store_call.extend =
          ⟨s._name, s._data ++ [default], (s._data.length : Int)⟩ := by
        show s.extend.1 = _
        rw [he]
      rw [hc]
      have := ih ⟨s._name, s._data ++ [default], (s._data.length : Int)⟩
        (by simp) (by simp only [List.length_append, List.length_singleton]; omega)
      obtain ⟨a, b, c⟩ := this
      refine ⟨a, b, ?_⟩
      simp only [List.length_append, List.length_singleton] at c
      rw [List.length_cons]; omega
    | clear =>
      have hc : s.call store_call.clear = ⟨s._name, [], -1⟩ :=
        rfl
      rw [hc]
      have := ih ⟨s._name, [], -1⟩ (by simp)
        (by simp only [List.length_nil]; omega)
      obtain ⟨a, b, c⟩ := this
      refine ⟨a, b, ?_⟩
      simp only [List.length_nil] at c
      rw [List.length_cons]; omega

/-- With `_current` the last index, `current()` throws exactly when there is
no entry, and returns the last entry otherwise. -/
theorem current_of_invariant {T : Type} (s : cli_store T)
    (h : s._current = (s._data.length : Int) - 1) :
    (s.current = Except.error (no_current_message s._name) ↔ s.empty = true) ∧
    (s.empty = false → ∃ v, s.current = Except.ok v) := by
  unfold cli_store.current cli_store.empty
  cases hd : s._data with
  | nil =>
    rw [hd] at h
    have hneg : s._current < 0 := by rw [h]; simp
    simp [hneg]
  | cons a as =>
    rw [hd] at h
    simp only [List.length_cons] at h
    have hnn : ¬ s._current < 0 := by rw [h]; push_cast; omega
    have hidx : s._current.toNat = as.length := by rw [h]; push_cast; omega
    have hget : (a :: as)[as.length]? = some ((a :: as).getD as.length a) := by
      rw [List.getElem?_eq_getElem (by simp), List.getD_eq_getElem _ _ (by simp)]
    simp only [hnn, if_false, hidx, hget, List.isEmpty_cons]
    refine ⟨⟨?_, ?_⟩, fun _ => ⟨_, rfl⟩⟩
    · intro h; cases h
    · intro h; cases h

/-- After `k` calls of `extend()` on a fresh store, `k` at most `2^31`, the
store holds `k` default entries and `_current = k - 1`. -/
theorem calls_extend_replicate {T : Type} [Inhabited T] (name : String) :
    ∀ k : Nat, k ≤ 2147483648 →
      (cli_store.create name : cli_store T).calls (List.replicate k store_call.extend) =
        ⟨name, List.replicate k default, (k : Int) - 1⟩ := by
  intro k
  induction k with
  | zero => intro _; rfl
  | succ k ih =>
    intro hk
    rw [List.replicate_succ', calls_concat, ih (by omega)]
    show (cli_store.extend _).1 = _
    rw [extend_of_lt _ (by simp only [List.length_replicate]; omega)]
    simp only [List.length_replicate, ← List.replicate_succ']
    congr 1
    push_cast
    omega

theorem size_mk {T : Type} (a : String) (d : List T) (c : Int) :
    (⟨a, d, c⟩ : cli_store T).size = d.length := rfl

theorem current_index_mk {T : Type} (a : String) (d : List T) (c : Int) :
    (⟨a, d, c⟩ : cli_store T).current_index = c := rfl

theorem call_extend {T : Type} [Inhabited T] (s : cli_store T) :
    s.call store_call.extend = s.extend.1 := rfl

theorem extend_overflow_fst {T : Type} [Inhabited T] (a : String) (d : List T) (c : Int)
    (h : d.length = 2147483648) :
    ((⟨a, d, c⟩ : cli_store T).extend).1 = ⟨a, d ++ [default], -2147483648⟩ := by
  rw [extend_overflow _ h]

theorem extend_overflow_snd {T : Type} [Inhabited T] (a : String) (d : List T) (c : Int)
    (h : d.length = 2147483648) :
    ((⟨a, d, c⟩ : cli_store T).extend).2 = some (no_current_message a) := by
  rw [extend_overflow _ h]

/-- The store after `2^31 + 1` calls of `extend()` on a fresh store. -/
theorem calls_overflow_state (name : String) :
    (cli_store.create name : cli_store Nat).calls
        (List.replicate (2147483648 + 1) store_call.extend) =
      ⟨name, List.replicate 2147483648 default ++ [default], -2147483648⟩ := by
  rw [List.replicate_succ' 2147483648, calls_concat,
    calls_extend_replicate name 2147483648 (le_refl _), call_extend,
    extend_overflow_fst _ _ _ (List.length_replicate _ _)]

theorem overflow_length :
    (List.replicate 2147483648 (default : Nat) ++ [default]).length = 2147483649 := by
  rw [List.length_append, List.length_replicate, List.length_singleton]

theorem overflow_index_ne : (-2147483648 : Int) ≠ ((2147483649 : Nat) : Int) - 1 := by
  norm_num

/-! ## Further properties: inputs, gate counts, masks, cursor, search, store -/

theorem tbs_scan_length :
    ∀ (fuel x : Nat) (perm : List Nat) (gates : List Gate),
      (tbs_scan fuel x perm gates).1.length = perm.length := by
  intro fuel
  induction fuel with
  | zero => intro x perm gates; rfl
  | succ fuel ih =>
    intro x perm gates
    unfold tbs_scan
    split
    · split
      · exact ih _ _ _
      · rw [ih, tbs_body_length]
    · rfl

/-- C11 as stated fails: the table `[0, 0]` is not a bijection and the table
`[0, 2, 1]` has length 3, yet each strategy returns a circuit holding gates
and leaves a table different from its input. -/
theorem malformed_input_not_rejected :
    ¬ is_bijection [0, 0] ∧
    transformation_based_synthesis [0, 0] = (⟨1, 1, [(0, 1)]⟩, [1, 1]) ∧
    transformation_based_synthesis_bidirectional [0, 0] = (⟨1, 1, [(0, 1)]⟩, [1, 1]) ∧
    transformation_based_synthesis_multidirectional [0, 0] = (⟨1, 1, [(0, 1)]⟩, [1, 1]) ∧
    [0, 2, 1].length = 3 ∧
    transformation_based_synthesis [0, 2, 1] =
      (⟨1, 1, [(2, 1), (1, 2), (2, 1)]⟩, [0, 1, 2]) ∧
    transformation_based_synthesis_bidirectional [0, 2, 1] =
      (⟨1, 1, [(2, 1), (1, 2), (2, 1)]⟩, [0, 1, 2]) ∧
    transformation_based_synthesis_multidirectional [0, 2, 1] =
      (⟨1, 1, [(2, 1), (1, 2), (2, 1)]⟩, [0, 1, 2]) := by
  decide

theorem tbs_body_gates_length (x : Nat) (perm : List Nat) (gates : List Gate) :
    gates.length ≤ (tbs_body x perm gates).2.length := by
  unfold tbs_body
  simp only []
  split <;> split <;> simp

theorem tbs_scan_gates_length :
    ∀ (fuel x : Nat) (perm : List Nat) (gates : List Gate),
      gates.length ≤ (tbs_scan fuel x perm gates).2.length := by
  intro fuel
  induction fuel with
  | zero => intro x perm gates; exact le_refl _
  | succ fuel ih =>
    intro x perm gates
    unfold tbs_scan
    split
    · split
      · exact ih _ _ _
      · exact le_trans (tbs_body_gates_length x perm gates) (ih _ _ _)
    · exact le_refl _

/-- The scan passes over a run of fixed rows without touching the table or the
recorded gates. -/
theorem tbs_scan_skip_fixed :
    ∀ (k fuel x : Nat) (perm : List Nat) (gates : List Gate), x + k ≤ perm.length →
      (∀ i, x ≤ i → i < x + k → perm.getD i 0 = i) →
      tbs_scan (k + fuel) x perm gates = tbs_scan fuel (x + k) perm gates := by
  intro k
  induction k with
  | zero => intro fuel x perm gates _ _; rw [Nat.zero_add, Nat.add_zero]
  | succ k ih =>
    intro fuel x perm gates hk hfix
    have h := ih fuel (x + 1) perm gates (by omega)
      (fun i h1 h2 => hfix i (by omega) (by omega))
    have e2 : x + 1 + k = x + (k + 1) := by omega
    rw [e2] at h
    have e : k + 1 + fuel = (k + fuel) + 1 := by omega
    rw [e]
    conv_lhs => unfold tbs_scan
    rw [if_pos (by omega), if_pos (hfix x (le_refl x) (by omega))]
    exact h

/-- The scan reaches the first row that is not fixed with the table untouched
and runs the loop body on it. -/
theorem tbs_scan_first_unfixed {perm : List Nat} {x : Nat} (hx : x < perm.length)
    (hfix : ∀ i, i < x → perm.getD i 0 = i) (hne : perm.getD x 0 ≠ x) :
    tbs_scan perm.length 0 perm [] =
      tbs_scan (perm.length - (x + 1)) (x + 1) (tbs_body x perm []).1
        (tbs_body x perm []).2 := by
  have e : perm.length = x + ((perm.length - (x + 1)) + 1) := by omega
  conv_lhs => rw [e]
  rw [tbs_scan_skip_fixed x _ 0 perm [] (by omega) (fun i _ h2 => hfix i (by omega)),
    Nat.zero_add]
  conv_lhs => unfold tbs_scan
  rw [if_pos hx, if_neg hne]

theorem eq_of_xor_eq_zero {a b : Nat} (h : a ^^^ b = 0) : a = b := by
  by_contra hne
  exact xor_ne_zero hne h

theorem eq_of_andn_zero {a b : Nat} (h1 : a ^^^ (a &&& b) = 0) (h2 : b ^^^ (b &&& a) = 0) :
    a = b := by
  have e1 := eq_of_xor_eq_zero h1
  have e2 := eq_of_xor_eq_zero h2
  rw [Nat.and_comm] at e2
  rw [e1, ← e2]

/-- On a row that is not fixed the loop body records a gate and leaves the row
fixed, so it changes the table. -/
theorem tbs_body_unfixed {perm : List Nat} {x : Nat} (hx : x < perm.length)
    (hx16 : x < 65536) (hy16 : perm.getD x 0 < 65536) (hne : perm.getD x 0 ≠ x) :
    (tbs_body x perm []).1.getD x 0 = x ∧ (tbs_body x perm []).2 ≠ [] := by
  rw [tbs_body_eq [] hx16 hy16 rfl]
  constructor
  · show (update_permutation (update_permutation perm (perm.getD x 0)
      (x ^^^ (x &&& perm.getD x 0))) x (perm.getD x 0 ^^^ (perm.getD x 0 &&& x))).getD x 0 = x
    rw [getD_update_permutation _ _ _ _ (by simpa using hx),
      getD_update_permutation _ _ _ _ hx]
    exact repair_maps x (perm.getD x 0)
  · show (if perm.getD x 0 ^^^ (perm.getD x 0 &&& x) ≠ 0 then
        (if x ^^^ (x &&& perm.getD x 0) ≠ 0 then
            ([] : List Gate) ++ [(perm.getD x 0, x ^^^ (x &&& perm.getD x 0))]
          else []) ++ [(x, perm.getD x 0 ^^^ (perm.getD x 0 &&& x))]
      else (if x ^^^ (x &&& perm.getD x 0) ≠ 0 then
          ([] : List Gate) ++ [(perm.getD x 0, x ^^^ (x &&& perm.getD x 0))]
        else [])) ≠ []
    by_cases hb : perm.getD x 0 ^^^ (perm.getD x 0 &&& x) = 0
    · by_cases ha : x ^^^ (x &&& perm.getD x 0) = 0
      · exact absurd (eq_of_andn_zero ha hb).symm hne
      · rw [if_neg (not_not.mpr hb), if_pos ha]
        exact List.cons_ne_nil _ _
    · rw [if_pos hb]
      exact List.append_ne_nil_of_right_ne_nil _ (List.cons_ne_nil _ _)

/-- C11, amended: no strategy checks its input, and a malformed table is not
rejected. On every non-empty table of at most `2^16` rows of `uint16_t` entries,
of whatever length and contents, the unidirectional strategy emits no gate exactly
when `table[i] == i` on every row; otherwise the scan reaches the first row `x`
with `table[x] != x` with the table untouched and there changes the table (row
`x` becomes `x`) and records a gate, so the circuit holds a gate. The
bidirectional and multidirectional strategies repair the malformed tables
`[0, 0]` and `[0, 2, 1]` on the forward side only, emit gates and leave a
changed table. -/
theorem malformed_input_is_processed (perm : List Nat) (_hne : perm ≠ [])
    (hrows : perm.length ≤ 65536) (htype : ∀ v ∈ perm, v < 65536) :
    ((transformation_based_synthesis perm).1.gates = [] ↔
      ∀ i, i < perm.length → perm.getD i 0 = i) ∧
    (∀ x, x < perm.length → (∀ i, i < x → perm.getD i 0 = i) → perm.getD x 0 ≠ x →
      tbs_scan perm.length 0 perm [] =
        tbs_scan (perm.length - (x + 1)) (x + 1) (tbs_body x perm []).1
          (tbs_body x perm []).2 ∧
      (tbs_body x perm []).1.getD x 0 = x ∧ (tbs_body x perm []).2 ≠ [] ∧
      (transformation_based_synthesis perm).1.gates ≠ []) ∧
    ((transformation_based_synthesis_bidirectional [0, 0]).1.gates = [(0, 1)] ∧
      (transformation_based_synthesis_bidirectional [0, 0]).2 = [1, 1] ∧
      (transformation_based_synthesis_multidirectional [0, 0]).1.gates = [(0, 1)] ∧
      (transformation_based_synthesis_multidirectional [0, 0]).2 = [1, 1]) ∧
    ((transformation_based_synthesis_bidirectional [0, 2, 1]).1.gates =
        [(2, 1), (1, 2), (2, 1)] ∧
      (transformation_based_synthesis_bidirectional [0, 2, 1]).2 = [0, 1, 2] ∧
      (transformation_based_synthesis_multidirectional [0, 2, 1]).1.gates =
        [(2, 1), (1, 2), (2, 1)] ∧
      (transformation_based_synthesis_multidirectional [0, 2, 1]).2 = [0, 1, 2]) ∧
    (popcount (1 ^^^ 0) ≤ popcount (1 ^^^ u16 (find_from [0, 0] 1)) ∧
      popcount (1 ^^^ 2) ≤ popcount (1 ^^^ u16 (find_from [0, 2, 1] 1)) ∧
      popcount (2 ^^^ 3) ≤ popcount (2 ^^^ u16 (find_from [0, 1, 3] 2)) ∧
      (cheapest [0, 0] 0).1 = 0 ∧ (cheapest [0, 0] 1).1 = 1 ∧
      (cheapest [0, 2, 1] 0).1 = 0 ∧ (cheapest [0, 2, 1] 1).1 = 1 ∧
      (cheapest [0, 1, 3] 2).1 = 2) := by
  have hgates : (transformation_based_synthesis perm).1.gates =
      (tbs_scan perm.length 0 perm []).2.reverse := by
    unfold transformation_based_synthesis
    simp only [emit_new_circuit_gates]
  have hstep : ∀ x, x < perm.length → (∀ i, i < x → perm.getD i 0 = i) →
      perm.getD x 0 ≠ x →
      tbs_scan perm.length 0 perm [] =
        tbs_scan (perm.length - (x + 1)) (x + 1) (tbs_body x perm []).1
          (tbs_body x perm []).2 ∧
      (tbs_body x perm []).1.getD x 0 = x ∧ (tbs_body x perm []).2 ≠ [] ∧
      (transformation_based_synthesis perm).1.gates ≠ [] := by
    intro x hx hfix hne
    have hy16 : perm.getD x 0 < 65536 := by
      apply htype
      rw [List.getD_eq_getElem _ _ hx]
      exact List.getElem_mem hx
    obtain ⟨b1, b2⟩ := tbs_body_unfixed hx (by omega) hy16 hne
    have hs := tbs_scan_first_unfixed hx hfix hne
    refine ⟨hs, b1, b2, ?_⟩
    rw [hgates, hs]
    intro hnil
    have h0 : (tbs_scan (perm.length - (x + 1)) (x + 1) (tbs_body x perm []).1
        (tbs_body x perm []).2).2.length = 0 := by
      rw [← List.length_reverse, hnil]; rfl
    have h1 := tbs_scan_gates_length (perm.length - (x + 1)) (x + 1) (tbs_body x perm []).1
      (tbs_body x perm []).2
    have h2 : 0 < (tbs_body x perm []).2.length := List.length_pos.mpr b2
    omega
  refine ⟨⟨?_, ?_⟩, hstep, by decide, by decide, by decide⟩
  · intro hnil
    by_contra hex
    have hex2 : ∃ x, x < perm.length ∧ perm.getD x 0 ≠ x := by
      by_contra hno
      apply hex
      intro i hi
      by_contra hne
      exact hno ⟨i, hi, hne⟩
    obtain ⟨hx, hne⟩ := Nat.find_spec hex2
    have hmin : ∀ i, i < Nat.find hex2 → perm.getD i 0 = i := by
      intro i hi
      by_contra hne2
      exact Nat.find_min hex2 hi ⟨by omega, hne2⟩
    exact (hstep _ hx hmin hne).2.2.2 hnil
  · intro hfix
    rw [hgates, tbs_scan_fixed _ _ _ _ (fun i _ hi => hfix i hi)]
    rfl

theorem malformed_input_is_processed_witness :
    ((transformation_based_synthesis [0, 2, 1]).1.gates = [] ↔
      ∀ i, i < [0, 2, 1].length → [0, 2, 1].getD i 0 = i) ∧
    ((transformation_based_synthesis [0, 1, 2]).1.gates = [] ↔
      ∀ i, i < [0, 1, 2].length → [0, 1, 2].getD i 0 = i) ∧
    (tbs_body 1 [0, 0] []).1.getD 1 0 = 1 :=
  ⟨(malformed_input_is_processed [0, 2, 1] (by decide) (by decide) (by decide)).1,
    (malformed_input_is_processed [0, 1, 2] (by decide) (by decide) (by decide)).1,
    ((malformed_input_is_processed [0, 0] (by decide) (by decide) (by decide)).2.1 1
      (by decide) (by decide) (by decide)).2.1⟩

/-- C12 as stated fails: `[3, 5, 4, 6, 2, 1, 7, 0]` is a bijection on `[0, 8)`
without fixed point on which the unidirectional strategy emits 7 gates, the
bidirectional one 10 and the multidirectional one 8. -/
theorem derangement_gate_counts_not_ordered :
    [3, 5, 4, 6, 2, 1, 7, 0].length = 8 ∧
    is_bijection [3, 5, 4, 6, 2, 1, 7, 0] ∧ no_fixed_point [3, 5, 4, 6, 2, 1, 7, 0] ∧
    (transformation_based_synthesis [3, 5, 4, 6, 2, 1, 7, 0]).1.gates.length = 7 ∧
    (transformation_based_synthesis_bidirectional [3, 5, 4, 6, 2, 1, 7, 0]).1.gates.length
      = 10 ∧
    (transformation_based_synthesis_multidirectional [3, 5, 4, 6, 2, 1, 7, 0]).1.gates.length
      = 8 ∧
    ¬ ((transformation_based_synthesis_bidirectional [3, 5, 4, 6, 2, 1, 7, 0]).1.gates.length
        ≤ (transformation_based_synthesis [3, 5, 4, 6, 2, 1, 7, 0]).1.gates.length) ∧
    ¬ ((transformation_based_synthesis_multidirectional
          [3, 5, 4, 6, 2, 1, 7, 0]).1.gates.length
        ≤ (transformation_based_synthesis [3, 5, 4, 6, 2, 1, 7, 0]).1.gates.length) := by
  decide

/-- C12, amended: some bijections on `[0, 8)` without fixed point have
bidirectional and multidirectional gate counts at most the unidirectional one
(here 7 and 7 against 9). -/
theorem derangement_gate_counts_some :
    ∃ p : List Nat, p.length = 8 ∧ is_bijection p ∧ no_fixed_point p ∧
      (transformation_based_synthesis_bidirectional p).1.gates.length ≤
        (transformation_based_synthesis p).1.gates.length ∧
      (transformation_based_synthesis_multidirectional p).1.gates.length ≤
        (transformation_based_synthesis p).1.gates.length ∧
      (transformation_based_synthesis p).1.gates.length = 9 ∧
      (transformation_based_synthesis_bidirectional p).1.gates.length = 7 ∧
      (transformation_based_synthesis_multidirectional p).1.gates.length = 7 :=
  ⟨[4, 3, 7, 5, 6, 2, 1, 0], by decide⟩

/-- C13. Controls and targets are disjoint: for `n ≤ 16` and a bijective table
of length `2^n`, every gate emitted by any of the three strategies has
`control_mask & target_mask == 0`. -/
theorem emitted_gates_disjoint (n : Nat) (p : List Nat) (hn : n ≤ 16)
    (hlen : p.length = 2 ^ n) (hp : is_bijection p) :
    (∀ g ∈ (transformation_based_synthesis p).1.gates, g.1 &&& g.2 = 0) ∧
    (∀ g ∈ (transformation_based_synthesis_bidirectional p).1.gates, g.1 &&& g.2 = 0) ∧
    (∀ g ∈ (transformation_based_synthesis_multidirectional p).1.gates,
      g.1 &&& g.2 = 0) := by
  obtain ⟨h1, h2, h3⟩ := strategies_gates_ok hn hlen hp
  exact ⟨fun g hg => (h1 g hg).1, fun g hg => (h2 g hg).1, fun g hg => (h3 g hg).1⟩

theorem emitted_gates_disjoint_witness :
    (∀ g ∈ (transformation_based_synthesis [3, 0, 1, 2]).1.gates, g.1 &&& g.2 = 0) ∧
    (∀ g ∈ (transformation_based_synthesis_bidirectional [3, 0, 1, 2]).1.gates,
      g.1 &&& g.2 = 0) ∧
    (∀ g ∈ (transformation_based_synthesis_multidirectional [3, 0, 1, 2]).1.gates,
      g.1 &&& g.2 = 0) :=
  emitted_gates_disjoint 2 [3, 0, 1, 2] (by decide) (by decide) (by decide)

/-- C15, at the failing input `[2, 0, 1, 3]`: row 0 is repaired on the forward
side (gate `(0, 2)`), row 1 on the backward side (gate `(1, 2)`), row 2 on the
forward side (gate `(2, 1)`); the backward gate is inserted in front of
`end()` and so lands behind the forward gate `(0, 2)`: the final list is
`(2, 1), (0, 2), (1, 2)`, not the backward gate followed by the forward
gates. -/
theorem cursor_discipline_fails :
    is_bijection [2, 0, 1, 3] ∧
    (popcount (0 ^^^ 2) ≤ popcount (0 ^^^ u16 (find_from [2, 0, 1, 3] 0)) ∧
      bidirectional_body 0 [2, 0, 1, 3] gate_list.init =
        ([0, 2, 3, 1], ⟨[(0, 2)], 1⟩)) ∧
    (¬ popcount (1 ^^^ 2) ≤ popcount (1 ^^^ u16 (find_from [0, 2, 3, 1] 1)) ∧
      bidirectional_body 1 [0, 2, 3, 1] ⟨[(0, 2)], 1⟩ =
        ([0, 1, 3, 2], ⟨[(0, 2), (1, 2)], 0⟩)) ∧
    (popcount (2 ^^^ 3) ≤ popcount (2 ^^^ u16 (find_from [0, 1, 3, 2] 2)) ∧
      bidirectional_body 2 [0, 1, 3, 2] ⟨[(0, 2), (1, 2)], 0⟩ =
        ([0, 1, 2, 3], ⟨[(2, 1), (0, 2), (1, 2)], 1⟩)) ∧
    (transformation_based_synthesis_bidirectional [2, 0, 1, 3]).1.gates =
      [(2, 1), (0, 2), (1, 2)] ∧
    (transformation_based_synthesis_bidirectional [2, 0, 1, 3]).1.gates ≠
      [(1, 2), (0, 2), (2, 1)] ∧
    (transformation_based_synthesis_bidirectional [2, 0, 1, 3]).1.gates ≠
      [(1, 2), (2, 1), (0, 2)] := by
  decide

/-- C17. Cost monotonicity at one step: for a bijective table of `uint16_t`
entries of length `2^n` and a row `x` whose predecessors are fixed and which
is not fixed itself, the bidirectional search finds the row `xs` holding `x`;
the strategy repairs forward exactly when `popcount(x ^ y) <= popcount(x ^ xs)`
(so also on a tie) and backward otherwise, so the cost of its repair is the
minimum of the two; and the cost of the candidate selected by the
multidirectional search is at most that minimum. -/
theorem cost_monotonicity_step (n : Nat) (perm : List Nat) (x : Nat) (l : gate_list)
    (hlen : perm.length = 2 ^ n) (hb : is_bijection perm)
    (htype : ∀ v ∈ perm, v < 65536) (hx : x < 2 ^ n)
    (hfix : ∀ i, i < x → perm.getD i 0 = i) (_hne : perm.getD x 0 ≠ x) :
    perm.getD (u16 (find_from perm x)) 0 = x ∧
    (popcount (x ^^^ perm.getD x 0) ≤ popcount (x ^^^ u16 (find_from perm x)) →
      (bidirectional_body x perm l).1 =
        update_permutation (update_permutation perm (perm.getD x 0)
          (x ^^^ (x &&& perm.getD x 0))) x (perm.getD x 0 ^^^ (perm.getD x 0 &&& x))) ∧
    (¬ popcount (x ^^^ perm.getD x 0) ≤ popcount (x ^^^ u16 (find_from perm x)) →
      (bidirectional_body x perm l).1 =
        update_permutation_inv (update_permutation_inv perm (u16 (find_from perm x))
          (x ^^^ (x &&& u16 (find_from perm x)))) x
          (u16 (find_from perm x) ^^^ (u16 (find_from perm x) &&& x))) ∧
    (if popcount (x ^^^ perm.getD x 0) ≤ popcount (x ^^^ u16 (find_from perm x)) then
        popcount (x ^^^ perm.getD x 0)
      else popcount (x ^^^ u16 (find_from perm x))) =
      min (popcount (x ^^^ perm.getD x 0)) (popcount (x ^^^ u16 (find_from perm x))) ∧
    (cheapest perm x).2 = cost_f perm x (cheapest perm x).1 ∧
    cost_f perm x (cheapest perm x).1 ≤
      min (popcount (x ^^^ perm.getD x 0)) (popcount (x ^^^ u16 (find_from perm x))) := by
  have hn : n ≤ 16 := le_16_of_typed hlen hb htype
  have h16 := pow_le_65536 hn
  have hinv : scan_inv n perm x := ⟨hlen, hb, hfix⟩
  obtain ⟨hs1, hs2, hs3⟩ := hinv.find_from_spec hx
  have hyN := hinv.entry_lt hx
  have hu : u16 (find_from perm x) = find_from perm x := u16_of_lt (by omega)
  obtain ⟨_, _, c3, c4, _⟩ := cheapest_argmin perm x (by rw [hlen]; exact hx)
  rw [hu]
  have htab := @bidirectional_body_table x (perm.getD x 0) (find_from perm x) perm l
    (by omega) (by omega) (by omega) rfl rfl
  refine ⟨hs3, ?_, ?_, ?_, c3, ?_⟩
  · intro hle
    rw [htab, if_pos hle]
  · intro hle
    rw [htab, if_neg hle]
  · split
    · rename_i hle
      exact (Nat.min_eq_left hle).symm
    · rename_i hle
      exact (Nat.min_eq_right (by omega)).symm
  · apply Nat.le_min.mpr
    constructor
    · have := c4 x (le_refl x) (by rw [hlen]; exact hx)
      rwa [cost_f_self] at this
    · have := c4 (find_from perm x) hs1 (by rw [hlen]; exact hs2)
      have e : cost_f perm x (find_from perm x) = popcount (x ^^^ find_from perm x) := by
        unfold cost_f
        rw [hs3, Nat.xor_self, popcount_zero, Nat.add_zero, Nat.xor_comm]
      rwa [e] at this

theorem cost_monotonicity_step_witness :
    [0, 7, 2, 1, 4, 5, 6, 3].getD (u16 (find_from [0, 7, 2, 1, 4, 5, 6, 3] 1)) 0 = 1 ∧
    cost_f [0, 7, 2, 1, 4, 5, 6, 3] 1 (cheapest [0, 7, 2, 1, 4, 5, 6, 3] 1).1 ≤
      min (popcount (1 ^^^ [0, 7, 2, 1, 4, 5, 6, 3].getD 1 0))
        (popcount (1 ^^^ u16 (find_from [0, 7, 2, 1, 4, 5, 6, 3] 1))) :=
  have h := cost_monotonicity_step 3 [0, 7, 2, 1, 4, 5, 6, 3] 1 gate_list.init (by decide)
    (by decide) (by decide) (by decide) (by decide) (by decide)
  ⟨h.1, h.2.2.2.2.2⟩

/-- C18. Emitted masks fit the wires of the circuit: for `n ≤ 16` and a
bijective table of length `2^n`, every gate emitted by any of the three
strategies has `control_mask < 2^n`, `target_mask < 2^n` and
`target_mask != 0`. -/
theorem emitted_masks_fit (n : Nat) (p : List Nat) (hn : n ≤ 16)
    (hlen : p.length = 2 ^ n) (hp : is_bijection p) :
    (∀ g ∈ (transformation_based_synthesis p).1.gates,
      g.1 < 2 ^ n ∧ g.2 < 2 ^ n ∧ g.2 ≠ 0) ∧
    (∀ g ∈ (transformation_based_synthesis_bidirectional p).1.gates,
      g.1 < 2 ^ n ∧ g.2 < 2 ^ n ∧ g.2 ≠ 0) ∧
    (∀ g ∈ (transformation_based_synthesis_multidirectional p).1.gates,
      g.1 < 2 ^ n ∧ g.2 < 2 ^ n ∧ g.2 ≠ 0) := by
  obtain ⟨h1, h2, h3⟩ := strategies_gates_ok hn hlen hp
  exact ⟨fun g hg => (h1 g hg).2, fun g hg => (h2 g hg).2, fun g hg => (h3 g hg).2⟩

theorem emitted_masks_fit_witness :
    (∀ g ∈ (transformation_based_synthesis [3, 0, 1, 2]).1.gates,
      g.1 < 2 ^ 2 ∧ g.2 < 2 ^ 2 ∧ g.2 ≠ 0) ∧
    (∀ g ∈ (transformation_based_synthesis_bidirectional [3, 0, 1, 2]).1.gates,
      g.1 < 2 ^ 2 ∧ g.2 < 2 ^ 2 ∧ g.2 ≠ 0) ∧
    (∀ g ∈ (transformation_based_synthesis_multidirectional [3, 0, 1, 2]).1.gates,
      g.1 < 2 ^ 2 ∧ g.2 < 2 ^ 2 ∧ g.2 ≠ 0) :=
  emitted_masks_fit 2 [3, 0, 1, 2] (by decide) (by decide) (by decide)

/-- C20 as stated fails: after `2^31 + 1` calls of `extend()` on a fresh store
the store holds `2^31 + 1` entries, but `_current` is the old size `2^31`
converted to `int`, which is `-2^31`, and not `size() - 1`; that last call of
`extend()` ends with the exception of its inner `current()`. -/
theorem store_index_overflows :
    ((cli_store.create "aig" : cli_store Nat).calls
        (List.replicate (2147483648 + 1) store_call.extend)).size = 2147483649 ∧
    ((cli_store.create "aig" : cli_store Nat).calls
        (List.replicate (2147483648 + 1) store_call.extend)).current_index = -2147483648 ∧
    ((cli_store.create "aig" : cli_store Nat).calls
        (List.replicate (2147483648 + 1) store_call.extend)).current_index ≠
      (((cli_store.create "aig" : cli_store Nat).calls
        (List.replicate (2147483648 + 1) store_call.extend)).size : Int) - 1 ∧
    ((cli_store.create "aig" : cli_store Nat).calls
        (List.replicate 2147483648 store_call.extend)).extend.2 =
      some (no_current_message "aig") := by
  rw [calls_overflow_state, size_mk, current_index_mk, overflow_length,
    calls_extend_replicate "aig" 2147483648 (le_refl _),
    extend_overflow_snd _ _ _ (List.length_replicate _ _)]
  exact ⟨rfl, rfl, overflow_index_ne, rfl⟩

theorem extend_any {T : Type} [Inhabited T] (s : cli_store T) :
    s.extend.1._name = s._name ∧ s.extend.1._data.length = s._data.length + 1 ∧
      s.extend.1._current = to_int32 s._data.length := by
  unfold cli_store.extend
  simp only []
  split
  · exact ⟨rfl, by rw [List.length_append, List.length_singleton], rfl⟩
  · exact ⟨rfl, by rw [List.length_set, List.length_append, List.length_singleton], rfl⟩

/-- Whatever the history of calls, the store keeps its name, and `_current` is
`-1` when there is no entry and the size minus one, converted to `int`, when
there is one. -/
theorem calls_reachable {T : Type} [Inhabited T] :
    ∀ (cs : List store_call) (s : cli_store T),
      ((s._data.length = 0 ∧ s._current = -1) ∨
        (0 < s._data.length ∧ s._current = to_int32 (s._data.length - 1))) →
      (s.calls cs)._name = s._name ∧
      (((s.calls cs)._data.length = 0 ∧ (s.calls cs)._current = -1) ∨
        (0 < (s.calls cs)._data.length ∧
          (s.calls cs)._current = to_int32 ((s.calls cs)._data.length - 1))) := by
  intro cs
  induction cs with
  | nil => intro s h; exact ⟨rfl, h⟩
  | cons c cs ih =>
    intro s _
    rw [calls_cons]
    cases c with
    | extend =>
      obtain ⟨e1, e2, e3⟩ := extend_any s
      have hc : s.call store_call.extend = s.extend.1 := rfl
      rw [hc]
      obtain ⟨a, b⟩ := ih s.extend.1 (Or.inr ⟨by omega, by
        rw [e3, e2, Nat.add_sub_cancel]⟩)
      exact ⟨a.trans e1, b⟩
    | clear =>
      have hc : s.call store_call.clear = ⟨s._name, [], -1⟩ := rfl
      rw [hc]
      exact ih ⟨s._name, [], -1⟩ (Or.inl ⟨rfl, rfl⟩)

/-- C20, amended: after any finite sequence of `extend()` and `clear()` calls
on a fresh store, whenever the store holds at most `2^31` entries,
`current_index() == size() - 1`; `current()` then throws the
"no current ... available" message exactly when the store is empty and returns
an entry otherwise; and while the store holds fewer than `2^31` entries,
`extend()` returns normally, adds a default entry behind the unchanged earlier
ones and makes it the current one. -/
theorem store_index_invariant {T : Type} [Inhabited T] (name : String)
    (cs : List store_call)
    (hsize : ((cli_store.create name : cli_store T).calls cs).size ≤ 2147483648) :
    ((cli_store.create name : cli_store T).calls cs).current_index =
      ((((cli_store.create name : cli_store T).calls cs).size : Nat) : Int) - 1 ∧
    (((cli_store.create name : cli_store T).calls cs).current =
        Except.error (no_current_message name) ↔
      ((cli_store.create name : cli_store T).calls cs).empty = true) ∧
    (((cli_store.create name : cli_store T).calls cs).empty = false →
      ∃ v, ((cli_store.create name : cli_store T).calls cs).current = Except.ok v) ∧
    (((cli_store.create name : cli_store T).calls cs).size < 2147483648 →
      ((cli_store.create name : cli_store T).calls cs).extend.2 = none ∧
      ((cli_store.create name : cli_store T).calls cs).extend.1.size =
        ((cli_store.create name : cli_store T).calls cs).size + 1 ∧
      ((cli_store.create name : cli_store T).calls cs).extend.1._data =
        ((cli_store.create name : cli_store T).calls cs)._data ++ [default] ∧
      ((cli_store.create name : cli_store T).calls cs).extend.1.current_index =
        ((((cli_store.create name : cli_store T).calls cs).size : Nat) : Int) ∧
      ((cli_store.create name : cli_store T).calls cs).extend.1.current =
        Except.ok default) := by
  obtain ⟨h1, hr⟩ := calls_reachable cs (cli_store.create name : cli_store T)
    (Or.inl ⟨rfl, rfl⟩)
  generalize (cli_store.create name : cli_store T).calls cs = s at h1 hr hsize
  have h1' : s._name = name := h1
  have hsz : s._data.length ≤ 2147483648 := hsize
  have h2 : s._current = (s._data.length : Int) - 1 := by
    rcases hr with ⟨ha, hb⟩ | ⟨ha, hb⟩
    · rw [hb, ha]; rfl
    · rw [hb, to_int32_of_lt (by omega)]
      omega
  obtain ⟨c1, c2⟩ := current_of_invariant s h2
  rw [h1'] at c1
  refine ⟨h2, c1, c2, ?_⟩
  intro hlt
  have hlt' : s._data.length < 2147483648 := hlt
  rw [extend_of_lt s hlt']
  refine ⟨rfl, ?_, rfl, rfl, ?_⟩
  · show (s._data ++ [default]).length = s._data.length + 1
    simp
  · unfold cli_store.current
    simp only []
    rw [if_neg (by omega), Int.toNat_ofNat]
    simp

theorem store_index_invariant_witness :
    ((cli_store.create "aig" : cli_store Nat).calls
        [store_call.extend, store_call.clear, store_call.extend]).current_index =
      ((((cli_store.create "aig" : cli_store Nat).calls
        [store_call.extend, store_call.clear, store_call.extend]).size : Nat) : Int) - 1 :=
  (store_index_invariant "aig" [store_call.extend, store_call.clear, store_call.extend]
    (by decide)).1

end TBS
